import Mathlib

/-!
# Verification of the DevCooker i18n core

A shallow embedding of the i18n translation machinery of the DevCooker
extension (`src/i18nTools/index.js`, `src/i18nTools/translationProvider.js`)
together with proofs about it.

Modelling conventions:

* JavaScript values that can appear in locale data are modelled by `JValue`,
  a JSON-like value tree.  JS objects are ordered association lists
  (`for..in` iterates string keys in insertion order); numbers are modelled
  by `Int` (the locale data never performs arithmetic on them).
* Property access (`o[k]`, `k in o`) is modelled as own-property lookup on
  the value tree; prototype-inherited members (`toString`, array methods)
  and the JS value `undefined` lie outside the value model.  On arrays,
  own properties are the numeric indices and `length`, while `for..in`
  enumeration yields the numeric indices only, matching JS.
* JS object assignment `o[k] = v` keeps the position of an existing key and
  appends a fresh one (`jsSet`).
* Fallible text-level steps (JSON.parse, the `export default` regex and
  object-literal evaluation in `saveTranslation`) are modelled by the
  outcome of the parse (`LocFile`), since the claims under verification
  concern the value-level behaviour after parsing.
-/

namespace DevCooker

/-- A JavaScript/JSON value as stored in the loaded locale data. -/
inductive JValue where
  | str : String → JValue
  | num : Int → JValue
  | bool : Bool → JValue
  | null : JValue
  | arr : List JValue → JValue
  | obj : List (String × JValue) → JValue

/-- JS object read `entries[k]`: the value at the first entry with key `k`. -/
def jsGet (es : List (String × JValue)) (k : String) : Option JValue :=
  (es.find? (fun p => p.1 = k)).map (·.2)

/-- JS object write `o[k] = v`: overwrite an existing key in place,
append a fresh one. -/
def jsSet (es : List (String × JValue)) (k : String) (v : JValue) :
    List (String × JValue) :=
  if es.any (fun p => p.1 = k) then
    es.map (fun p => if p.1 = k then (k, v) else p)
  else es ++ [(k, v)]

/-- `Object.assign(target, source)`: assign every entry of `src` into `es`. -/
def jsAssign (es src : List (String × JValue)) : List (String × JValue) :=
  src.foldl (fun a p => jsSet a p.1 p.2) es

/-- JS truthiness of a value. -/
def truthy : JValue → Bool
  | .null => false
  | .bool b => b
  | .num n => n != 0
  | .str s => s != ""
  | _ => true

/-- `typeof v === "object"` — true for objects, arrays and `null`. -/
def typeofObject : JValue → Bool
  | .obj _ => true
  | .arr _ => true
  | .null => true
  | _ => false

/-- `Array.isArray v`. -/
def isArray : JValue → Bool
  | .arr _ => true
  | _ => false

/-- Own-property read `v[k]` (and the test `k in v`, via `isSome`):
object keys on objects; numeric indices and `length` on arrays. -/
def getProp : JValue → String → Option JValue
  | .obj es, k => jsGet es k
  | .arr l, k =>
      if k = "length" then some (.num l.length)
      else l.enum.findSome? (fun p => if toString p.1 = k then some p.2 else none)
  | _, _ => none

/-- Model of JS `s.split(".")` on the character list. -/
def splitDotAux : List Char → List (List Char)
  | [] => [[]]
  | c :: cs =>
      match splitDotAux cs with
      | [] => [[]]
      | g :: gs => if c = '.' then [] :: g :: gs else (c :: g) :: gs

/-- JS `key.split(".")`. -/
def splitDot (s : String) : List String :=
  (splitDotAux s.data).map (fun l => ⟨l⟩)

/-- JS `segments.join(".")`. -/
def joinDot : List String → String
  | [] => ""
  | [s] => s
  | s :: rest => s ++ "." ++ joinDot rest

/-! ## Translation resolver (`translationProvider.js`, `getTranslationsForKey`)

The loaded locale data has shape `locale → namespace → data`, where `data`
is the (flattened) namespace object produced by the loader.  Locales and
namespaces are iterated in `for..in` order, i.e. list order. -/

/-- `locale → namespace → namespace data`. -/
abbrev LocaleData := List (String × List (String × JValue))

/-- Strategy 2 of `getTranslationsForKey`: the navigation loop.  Before each
segment the current value must be truthy, of `typeof "object"`, and have the
segment as a property (`part in current`); the final value is returned. -/
def navParts : JValue → List String → Option JValue
  | v, [] => some v
  | v, p :: ps =>
      if truthy v && typeofObject v && (getProp v p).isSome then
        navParts ((getProp v p).getD .null) ps
      else none

/-- Strategy 2 including its final acceptance test: the navigated value is
used only when `typeof current !== "object"`. -/
def strat2 (data : JValue) (parts : List String) : Option JValue :=
  match navParts data parts with
  | some v => if typeofObject v then none else some v
  | none => none

/-- The namespace scan of `getTranslationsForKey` for one locale, with the
source's `found` flag: state is (current `result[locale]` write, `found`);
`if (found) break` is the first test of each iteration.  Strategy 1 is the
exact flattened lookup `data[key]`, strategy 2 the segment navigation,
strategy 3 the trailing-segment lookup guarded by `parts.length > 1`. -/
def nsLoop (key : String) (parts : List String) :
    List (String × JValue) → Option JValue × Bool → Option JValue × Bool
  | [], st => st
  | (_, data) :: rest, (res, found) =>
      if found then (res, found)
      else
        match getProp data key with
        | some v => nsLoop key parts rest (some v, true)
        | none =>
          match strat2 data parts with
          | some v => nsLoop key parts rest (some v, true)
          | none =>
            if 1 < parts.length then
              match getProp data ((parts.getLastD "")) with
              | some v => nsLoop key parts rest (some v, true)
              | none => nsLoop key parts rest (res, found)
            else nsLoop key parts rest (res, found)

/-- `getTranslationsForKey(key, localeData)` — the resolution computed on a
cache miss (the cache layer itself is modelled separately below).  The
`if (!key)` guard returns an empty result for the empty key. -/
def getTranslationsForKey (key : String) (ld : LocaleData) :
    List (String × JValue) :=
  if key = "" then []
  else
    let parts := splitDot key
    ld.foldl (fun result p =>
      match (nsLoop key parts p.2 (none, false)).1 with
      | some v => jsSet result p.1 v
      | none => result) []

/-! The resolution algorithm as the specification describes it: per locale,
the first namespace (in order) for which one of the three strategies (in
order) produces a value supplies that locale's value. -/

/-- The three lookup strategies of the spec, tried in order on one
namespace's data. -/
def resolveStrategies (key : String) (data : JValue) : Option JValue :=
  (getProp data key).orElse (fun _ =>
    (strat2 data (splitDot key)).orElse (fun _ =>
      if 1 < (splitDot key).length then
        getProp data ((splitDot key).getLastD "")
      else none))

/-- Resolution as described by the spec: scan namespaces in order, first
strategy success wins, stop at the first namespace that yields a value. -/
def specResolve (key : String) (ld : LocaleData) : List (String × JValue) :=
  ld.foldl (fun result p =>
    match p.2.findSome? (fun q => resolveStrategies key q.2) with
    | some v => jsSet result p.1 v
    | none => result) []

/-! ## Loader helpers (`i18nTools/index.js`): `flattenObject`, `deepMerge` -/

/-- The recursion guard of `flattenObject`: a non-null, non-array object
with at least one key. -/
def isNonemptyObj : JValue → Bool
  | .obj (_ :: _) => true
  | _ => false

mutual
/-- `flattenObject(obj, prefix)`: returns `{}` for non-objects, otherwise
flattens the entries. -/
def flattenObject (v : JValue) (pfx : String) : List (String × JValue) :=
  match v with
  | .obj es => flattenList es pfx []
  | _ => []

/-- The key loop of `flattenObject`, accumulating into `result`: for a
non-empty plain-object value the nested keys are `Object.assign`ed in and
the node itself is kept at its own key; otherwise the value is a leaf. -/
def flattenList (es : List (String × JValue)) (pfx : String)
    (acc : List (String × JValue)) : List (String × JValue) :=
  match es with
  | [] => acc
  | (k, v) :: rest =>
      let newKey := if pfx = "" then k else pfx ++ "." ++ k
      let acc' :=
        if isNonemptyObj v then
          jsSet (jsAssign acc (flattenObject v newKey)) newKey v
        else jsSet acc newKey v
      flattenList rest pfx acc'
end

/-- `for..in` enumeration together with spread `{...v}`: own enumerable
entries — object entries, or index/value pairs of an array. -/
def spreadEntries : JValue → List (String × JValue)
  | .obj es => es
  | .arr l => l.enum.map (fun p => (toString p.1, p.2))
  | _ => []

/-- The recursion test of one `deepMerge` loop iteration: both `source[key]`
(`sv`) and `target[key]` are non-array `typeof "object"` values. -/
def mergeCond (target : JValue) (k : String) (sv : JValue) : Bool :=
  typeofObject sv && !isArray sv &&
    (match getProp target k with
     | some tv => typeofObject tv && !isArray tv
     | none => false)

mutual
/-- Structural size of a value, used as recursion fuel for `deepMerge`. -/
def jsize : JValue → Nat
  | .arr l => 1 + jsizeList l
  | .obj es => 1 + jsizeEntries es
  | _ => 1

def jsizeList : List JValue → Nat
  | [] => 0
  | v :: rest => 1 + jsize v + jsizeList rest

def jsizeEntries : List (String × JValue) → Nat
  | [] => 0
  | (_, v) :: rest => 1 + jsize v + jsizeEntries rest
end

theorem jsize_pos (v : JValue) : 0 < jsize v := by
  cases v <;> simp [jsize]

theorem jsize_le_jsizeEntries {es : List (String × JValue)} {k : String}
    {v : JValue} (h : (k, v) ∈ es) : jsize v ≤ jsizeEntries es := by
  induction es with
  | nil => cases h
  | cons p rest ih =>
      obtain ⟨k', v'⟩ := p
      rcases List.mem_cons.mp h with heq | hmem
      · cases heq; simp [jsizeEntries]; omega
      · have := ih hmem
        simp [jsizeEntries]; omega

theorem jsize_le_jsizeList {l : List JValue} {v : JValue} (h : v ∈ l) :
    jsize v ≤ jsizeList l := by
  induction l with
  | nil => cases h
  | cons w rest ih =>
      rcases List.mem_cons.mp h with heq | hmem
      · subst heq; simp [jsizeList]; omega
      · have := ih hmem
        simp [jsizeList]; omega

/-- `deepMerge(target, source)`, structured over a recursion-depth fuel
(any fuel of at least `jsize source` computes the merge, see
`deepMergeF_fuel_irrel`): non-objects short-circuit
(`!target || typeof target !== "object"`, with the two pure tests
commuted); otherwise start from the spread of `target` and assign each
`source` entry in `for..in` order (object keys, or stringified array
indices), recursing when `mergeCond` holds. -/
def deepMergeF : Nat → JValue → JValue → JValue
  | 0, _, source => source
  | fuel + 1, target, source =>
      if !(typeofObject target && truthy target) then source
      else if !(typeofObject source && truthy source) then target
      else
        .obj ((spreadEntries source).foldl (fun acc p =>
          if mergeCond target p.1 p.2 then
            jsSet acc p.1 (deepMergeF fuel ((getProp target p.1).getD .null) p.2)
          else jsSet acc p.1 p.2) (spreadEntries target))

/-- `deepMerge(target, source)`. -/
def deepMerge (target source : JValue) : JValue :=
  deepMergeF (jsize source) target source

/-- The `for (const key in source)` loop of `deepMerge`, with the
recursive calls at full strength. -/
def mergeFold (target : JValue) (acc src : List (String × JValue)) :
    List (String × JValue) :=
  src.foldl (fun acc p =>
    if mergeCond target p.1 p.2 then
      jsSet acc p.1 (deepMerge ((getProp target p.1).getD .null) p.2)
    else jsSet acc p.1 p.2) acc

theorem foldl_congr_mem {α β : Type} {l : List α} {f g : β → α → β} :
    ∀ {b : β}, (∀ b' a, a ∈ l → f b' a = g b' a) →
      l.foldl f b = l.foldl g b := by
  induction l with
  | nil => intro b _; rfl
  | cons a rest ih =>
      intro b h
      simp only [List.foldl_cons]
      rw [h b a (List.mem_cons_self _ _)]
      exact ih (fun b' a' ha' => h b' a' (List.mem_cons_of_mem _ ha'))

theorem jsize_lt_of_mem_spreadEntries {k : String} {sv v : JValue}
    (h : (k, sv) ∈ spreadEntries v) : jsize sv < jsize v := by
  cases v with
  | obj es =>
      simp only [spreadEntries] at h
      have h1 := jsize_le_jsizeEntries h
      simp only [jsize]; omega
  | arr l =>
      simp only [spreadEntries, List.mem_map] at h
      obtain ⟨⟨i, w⟩, hmem, heq⟩ := h
      have hw : w ∈ l := List.snd_mem_of_mem_enum hmem
      have h1 := jsize_le_jsizeList hw
      obtain rfl : w = sv := by cases heq; rfl
      simp only [jsize]; omega
  | str s => simp [spreadEntries] at h
  | num n => simp [spreadEntries] at h
  | bool b => simp [spreadEntries] at h
  | null => simp [spreadEntries] at h

/-- Any fuel of at least `jsize source` computes the same merge. -/
theorem deepMergeF_fuel_irrel :
    ∀ (fuel fuel' : Nat) (target source : JValue), jsize source ≤ fuel →
      jsize source ≤ fuel' →
      deepMergeF fuel target source = deepMergeF fuel' target source := by
  intro fuel
  induction fuel with
  | zero =>
      intro fuel' target source h _
      exact absurd h (by have := jsize_pos source; omega)
  | succ fuel ih =>
      intro fuel' target source h h'
      cases fuel' with
      | zero => exact absurd h' (by have := jsize_pos source; omega)
      | succ fuel' =>
          by_cases h1 : (!(typeofObject target && truthy target)) = true
          · simp [deepMergeF, h1]
          · by_cases h2 : (!(typeofObject source && truthy source)) = true
            · simp [deepMergeF, h1, h2]
            · simp only [deepMergeF, if_neg h1, if_neg h2]
              congr 1
              apply foldl_congr_mem
              intro b p hp
              by_cases hc : mergeCond target p.1 p.2 = true
              · rw [if_pos hc, if_pos hc]
                congr 1
                have hp' : (p.1, p.2) ∈ spreadEntries source := by simpa using hp
                have hlt := jsize_lt_of_mem_spreadEntries hp'
                exact ih fuel' _ _ (by omega) (by omega)
              · rw [if_neg hc, if_neg hc]

theorem deepMerge_eq_mergeable {target source : JValue}
    (h1 : (typeofObject target && truthy target) = true)
    (h2 : (typeofObject source && truthy source) = true) :
    deepMerge target source
      = .obj (mergeFold target (spreadEntries target) (spreadEntries source)) := by
  have hpos := jsize_pos source
  rw [deepMerge, show jsize source = (jsize source - 1) + 1 by omega]
  simp only [deepMergeF, h1, h2, Bool.not_true, Bool.false_eq_true, if_false]
  congr 1
  unfold mergeFold
  apply foldl_congr_mem
  intro b p hp
  by_cases hc : mergeCond target p.1 p.2 = true
  · rw [if_pos hc, if_pos hc]
    congr 1
    rw [deepMerge]
    have hp' : (p.1, p.2) ∈ spreadEntries source := by simpa using hp
    have hlt := jsize_lt_of_mem_spreadEntries hp'
    exact deepMergeF_fuel_irrel _ _ _ _ (by omega) le_rfl
  · rw [if_neg hc, if_neg hc]

theorem deepMerge_obj_obj (tes ses : List (String × JValue)) :
    deepMerge (.obj tes) (.obj ses) = .obj (mergeFold (.obj tes) tes ses) :=
  deepMerge_eq_mergeable rfl rfl

theorem deepMerge_obj_arr (tes : List (String × JValue)) (l : List JValue) :
    deepMerge (.obj tes) (.arr l)
      = .obj (mergeFold (.obj tes) tes (spreadEntries (.arr l))) :=
  deepMerge_eq_mergeable rfl rfl

theorem deepMerge_obj_notmergeable (tes : List (String × JValue))
    {source : JValue} (h : (typeofObject source && truthy source) = false) :
    deepMerge (.obj tes) source = .obj tes := by
  have hpos := jsize_pos source
  rw [deepMerge, show jsize source = (jsize source - 1) + 1 by omega]
  simp only [deepMergeF]
  rw [if_neg (by simp [typeofObject, truthy]), if_pos (by simp [h])]

theorem deepMerge_null_null : deepMerge .null .null = .null := rfl

/-! ## Writer (`i18nTools/index.js`): `setNestedValue`, `saveTranslation` -/

/-- `setNestedValue(obj, keys, value)`.  Empty key lists (and falsy `obj`)
return the object unchanged; a single key assigns directly; otherwise the
walk descends, replacing any intermediate that is not a plain object by a
fresh `{}`, and assigns at the last key.  Mutation is modelled by returning
the updated value.  (Property writes on primitives are silent no-ops in JS
and arrays cannot carry string data in serialized output, so non-object
targets are returned unchanged; no claim exercises those corners.) -/
def setNested (v : JValue) (keys : List String) (value : JValue) : JValue :=
  match keys, v with
  | [], _ => v
  | [k], .obj es => .obj (jsSet es k value)
  | [_], other => other
  | k :: rest, .obj es =>
      let child :=
        match jsGet es k with
        | some (.obj ces) => JValue.obj ces
        | _ => JValue.obj []
      .obj (jsSet es k (setNested child rest value))
  | _ :: _, other => other

/-- A locale file as `saveTranslation` sees it after the text-level stage:
a parsed `.json` file, a `.json` file whose `JSON.parse` throws, a `.js`/`.ts`
file whose `export default {...}` span was located and evaluated, or a
`.js`/`.ts` file in which no `export default` object can be located. -/
inductive LocFile where
  | jsonFile : JValue → LocFile
  | jsonBad : LocFile
  | jsFile : JValue → LocFile
  | jsFileNoExport : LocFile

/-- Per-locale outcome of a `saveTranslation` batch (the source reports these
via log/error messages and leaves the file untouched on failure). -/
inductive SaveOutcome where
  | skipped : SaveOutcome
  | written : LocFile → SaveOutcome
  | parseFailed : SaveOutcome
  | exportNotFound : SaveOutcome

/-- `locale → namespace → files` as built by `findLocaleFiles`. -/
abbrev LocaleFiles := List (String × List (String × List LocFile))

/-- File lookup inside the index: `localeFiles[locale]`. -/
def filesFor (lf : LocaleFiles) (locale : String) :
    Option (List (String × List LocFile)) :=
  (lf.find? (fun p => p.1 = locale)).map (·.2)

/-- Target selection of `saveTranslation`: prefer the namespace equal to the
key's first segment when it has at least one file, otherwise the first
namespace of the index; the file is the namespace's first entry. -/
def selectTarget (nss : List (String × List LocFile)) (targetNamespace : String) :
    Option (String × LocFile) :=
  match nss.find? (fun p => p.1 = targetNamespace) with
  | some (ns, f :: _) => some (ns, f)
  | _ =>
      match nss with
      | (ns, fs) :: _ => fs.head?.map (fun f => (ns, f))
      | [] => none

/-- Writing one locale's value into its chosen file. -/
def saveLocaleFile (keyParts : List String) (value : JValue) :
    LocFile → SaveOutcome
  | .jsonFile d => .written (.jsonFile (setNested d keyParts value))
  | .jsonBad => .parseFailed
  | .jsFile d => .written (.jsFile (setNested d keyParts value))
  | .jsFileNoExport => .exportNotFound

/-- `saveTranslation(key, translations, localeFiles)`: each locale of the
batch is processed independently, in order; a falsy value or a locale or
namespace without files is skipped; the first key segment is stripped
exactly when it equals the chosen namespace. -/
def saveTranslation (key : String) (translations : List (String × JValue))
    (localeFiles : LocaleFiles) : List (String × SaveOutcome) :=
  let parts := splitDot key
  translations.map (fun lv =>
    let locale := lv.1
    let value := lv.2
    if !truthy value then (locale, .skipped)
    else
      match filesFor localeFiles locale with
      | none => (locale, .skipped)
      | some nss =>
          match selectTarget nss (parts.headD "") with
          | none => (locale, .skipped)
          | some (ns, file) =>
              let keyParts := if ns = parts.headD "" then parts.tail else parts
              (locale, saveLocaleFile keyParts value file))

/-! ## Session state and the translation cache
(`translationProvider.js` module state and `refreshLocales`) -/

/-- The module-level mutable state: the loaded locale data of
`i18nTools/index.js` and the `translationCache` map of
`translationProvider.js`. -/
structure SessionState where
  localeData : LocaleData
  cache : List (String × List (String × JValue))

/-- `getTranslationsForKey` as the source runs it: consult the cache first,
otherwise compute and store the result. -/
def getTranslationsForKeyCached (key : String) (s : SessionState) :
    List (String × JValue) × SessionState :=
  match (s.cache.find? (fun p => p.1 = key)).map (·.2) with
  | some r => (r, s)
  | none =>
      let r := getTranslationsForKey key s.localeData
      (r, { s with cache := s.cache ++ [(key, r)] })

/-- `refreshLocales`: the loaded data is replaced by the freshly loaded
tree.  No statement in `refreshLocales` (or anywhere else in the sources)
invokes `clearTranslationCache`, so the cache is carried over unchanged. -/
def refreshLocales (newData : LocaleData) (s : SessionState) : SessionState :=
  { localeData := newData, cache := s.cache }

/-! ## Call-site extractor (`translationProvider.js`, `parseJsContent`)

Only the callee shapes the walker inspects are modelled: identifiers and
member accesses (with identifier or non-identifier property); every other
callee kind leaves the method name empty. -/

/-- A member-expression property: an identifier, or anything else
(computed, private name, …). -/
inductive MProp where
  | ident : String → MProp
  | nonIdent : MProp

/-- The callee expression shapes relevant to `parseJsContent`. -/
inductive Expr where
  | ident : String → Expr
  | member : Expr → MProp → Expr
  | otherExpr : Expr

/-- The called-name resolution of `parseJsContent`: a bare identifier is its
own name; for `a.b` with identifier `b` the name is `b`, rewritten to
`"i18n.global.b"` whenever `a` is a member access whose property is the
identifier `global` (whatever the outer object), and to `"i18n.b"` when `a`
is the bare identifier `i18n`; otherwise the name stays empty. -/
def resolveMethodName : Expr → String
  | .ident name => name
  | .member o (.ident b) =>
      match o with
      | .member _ (.ident pn) => if pn = "global" then "i18n.global." ++ b else b
      | .ident objName => if objName = "i18n" then "i18n." ++ b else b
      | _ => b
  | .member _ MProp.nonIdent => ""
  | .otherExpr => ""

/-- The called-name resolution as the specification words it: for `a.b`,
when `a` is a member access ending in `.global` the name becomes
`"global.b"`, or `"i18n.global.b"` only when the next outer object is the
identifier `i18n`. -/
def specResolveName : Expr → String
  | .ident name => name
  | .member o (.ident b) =>
      match o with
      | .member oo (.ident pn) =>
          if pn = "global" then
            match oo with
            | .ident oon => if oon = "i18n" then "i18n.global." ++ b else "global." ++ b
            | _ => "global." ++ b
          else b
      | .ident objName => if objName = "i18n" then "i18n." ++ b else b
      | _ => b
  | .member _ MProp.nonIdent => ""
  | .otherExpr => ""

/-- A call-expression argument: a string literal or anything else. -/
inductive Arg where
  | strLit : String → Arg
  | nonStr : Arg

/-- A call expression as the walker sees it. -/
structure CallNode where
  callee : Expr
  args : List Arg

/-- Recognition test of `parseJsContent`: the resolved name is in the
configured set, there is at least one argument, and the first argument is a
string literal. -/
def isTranslationCall (methods : List String) (c : CallNode) : Bool :=
  methods.contains (resolveMethodName c.callee) && !c.args.isEmpty &&
    (match c.args.head? with
     | some (.strLit _) => true
     | _ => false)

/-! ## Loader: a namespace group's data
(`loadLocaleData`, the per-namespace merge-then-flatten) -/

/-- Loading one `(locale, namespace)` group: deep-merge each successfully
parsed file's object into the `{}` accumulator, then flatten. -/
def loadNamespaceData (datas : List JValue) : List (String × JValue) :=
  flattenObject (datas.foldl deepMerge (.obj [])) ""

/-! ## Support lemmas: `splitDot` -/

theorem splitDotAux_ne_nil (l : List Char) : splitDotAux l ≠ [] := by
  induction l with
  | nil => simp [splitDotAux]
  | cons c cs ih =>
      simp only [splitDotAux]
      cases h : splitDotAux cs with
      | nil => simp
      | cons g gs => by_cases hc : c = '.' <;> simp [hc]

theorem splitDot_ne_nil (s : String) : splitDot s ≠ [] := by
  simp [splitDot, splitDotAux_ne_nil]

theorem splitDotAux_no_dot {l : List Char} (h : '.' ∉ l) :
    splitDotAux l = [l] := by
  induction l with
  | nil => rfl
  | cons c cs ih =>
      simp only [List.mem_cons, not_or] at h
      simp only [splitDotAux, ih h.2]
      have hc : ¬ c = '.' := fun hc => h.1 hc.symm
      simp [hc]

theorem splitDot_no_dot {s : String} (h : '.' ∉ s.data) :
    splitDot s = [s] := by
  simp [splitDot, splitDotAux_no_dot h]

theorem splitDotAux_append {l₁ l₂ : List Char} (h : '.' ∉ l₁) :
    splitDotAux (l₁ ++ '.' :: l₂) = l₁ :: splitDotAux l₂ := by
  induction l₁ with
  | nil =>
      simp only [List.nil_append, splitDotAux]
      cases hs : splitDotAux l₂ with
      | nil => exact absurd hs (splitDotAux_ne_nil l₂)
      | cons g gs => simp
  | cons c cs ih =>
      simp only [List.mem_cons, not_or] at h
      have hc : ¬ c = '.' := fun hc => h.1 hc.symm
      simp only [List.cons_append, splitDotAux, List.append_eq]
      rw [ih h.2]
      simp [hc]

theorem splitDot_append {s₁ : String} (s₂ : String) (h : '.' ∉ s₁.data) :
    splitDot (s₁ ++ "." ++ s₂) = s₁ :: splitDot s₂ := by
  have hdata : (s₁ ++ "." ++ s₂).data = s₁.data ++ '.' :: s₂.data := by
    simp [String.data_append]
  simp [splitDot, hdata, splitDotAux_append h]

/-! ## Support lemmas: decimal `toString` on `Nat` is injective -/

/-- Decimal value of a digit character produced by `Nat.digitChar`. -/
def digitVal (c : Char) : Nat :=
  if c = '0' then 0 else if c = '1' then 1 else if c = '2' then 2
  else if c = '3' then 3 else if c = '4' then 4 else if c = '5' then 5
  else if c = '6' then 6 else if c = '7' then 7 else if c = '8' then 8
  else if c = '9' then 9 else 10

theorem digitVal_digitChar {d : Nat} (h : d < 10) :
    digitVal (Nat.digitChar d) = d := by
  interval_cases d <;> rfl

theorem toDigitsCore_val (fuel : Nat) :
    ∀ (n : Nat), n ≤ fuel → ∀ (ds : List Char),
      (Nat.toDigitsCore 10 (fuel + 1) n ds).foldl (fun a c => 10 * a + digitVal c) 0
        = ds.foldl (fun a c => 10 * a + digitVal c) n := by
  induction fuel with
  | zero =>
      intro n hn ds
      interval_cases n
      rw [show Nat.toDigitsCore 10 1 0 ds = Nat.digitChar 0 :: ds from rfl,
        List.foldl_cons, digitVal_digitChar (by omega)]
  | succ fuel ih =>
      intro n hn ds
      rw [show Nat.toDigitsCore 10 (fuel + 1 + 1) n ds
          = if n / 10 = 0 then Nat.digitChar (n % 10) :: ds
            else Nat.toDigitsCore 10 (fuel + 1) (n / 10)
              (Nat.digitChar (n % 10) :: ds) from rfl]
      have hmod : n % 10 < 10 := Nat.mod_lt _ (by omega)
      by_cases h0 : n / 10 = 0
      · rw [if_pos h0, List.foldl_cons, digitVal_digitChar hmod]
        have hn10 : n % 10 = n := by omega
        rw [show 10 * 0 + n % 10 = n by omega]
      · rw [if_neg h0]
        have hpos : 0 < n := by
          rcases Nat.eq_zero_or_pos n with h | h
          · subst h; simp at h0
          · exact h
        have hle : n / 10 ≤ fuel := by
          have h1 : n / 10 < n := Nat.div_lt_self hpos (by omega)
          omega
        rw [ih (n / 10) hle, List.foldl_cons, digitVal_digitChar hmod]
        have : 10 * (n / 10) + n % 10 = n := by omega
        rw [this]

theorem natRepr_val (n : Nat) :
    (Nat.toDigits 10 n).foldl (fun a c => 10 * a + digitVal c) 0 = n := by
  simpa [Nat.toDigits] using toDigitsCore_val n n le_rfl []

theorem toString_nat_injective : Function.Injective (toString : Nat → String) := by
  intro m n h
  have h' : Nat.repr m = Nat.repr n := h
  have hdig : Nat.toDigits 10 m = Nat.toDigits 10 n := by
    have h2 : ({ data := Nat.toDigits 10 m } : String)
        = { data := Nat.toDigits 10 n } := by
      simpa [Nat.repr, List.asString] using h'
    exact congrArg String.data h2
  have hv := natRepr_val m
  rw [hdig, natRepr_val n] at hv
  exact hv.symm

/-! ## Support lemmas: JS object association lists -/

/-- The keys of an object's entry list are pairwise distinct (every real JS
object satisfies this). -/
def keysNodup (es : List (String × JValue)) : Prop := (es.map Prod.fst).Nodup

mutual
/-- Well-formedness of a value: every object in it has pairwise distinct
keys.  Values parsed from JSON or from object literals always satisfy
this. -/
def wfJ : JValue → Bool
  | .obj es => wfEntries es
  | .arr l => wfList l
  | _ => true

def wfEntries : List (String × JValue) → Bool
  | [] => true
  | (k, v) :: rest => !(rest.any (fun p => p.1 = k)) && wfJ v && wfEntries rest

def wfList : List JValue → Bool
  | [] => true
  | v :: rest => wfJ v && wfList rest
end

theorem wfEntries_cons {k : String} {v : JValue} {rest : List (String × JValue)}
    (h : wfEntries ((k, v) :: rest) = true) :
    rest.any (fun p => p.1 = k) = false ∧ wfJ v = true ∧ wfEntries rest = true := by
  simp only [wfEntries, Bool.and_eq_true, Bool.not_eq_true'] at h
  exact ⟨h.1.1, h.1.2, h.2⟩

theorem wfEntries_nodup {es : List (String × JValue)}
    (h : wfEntries es = true) : keysNodup es := by
  induction es with
  | nil => simp [keysNodup]
  | cons p rest ih =>
      obtain ⟨k, v⟩ := p
      obtain ⟨h1, _, h3⟩ := wfEntries_cons h
      simp only [keysNodup, List.map_cons, List.nodup_cons]
      refine ⟨?_, ih h3⟩
      intro hmem
      obtain ⟨q, hq, hqk⟩ := List.mem_map.mp hmem
      have := List.any_eq_false.mp h1 q hq
      simp [hqk] at this

theorem wfEntries_mem_wfJ {es : List (String × JValue)} {k : String}
    {v : JValue} (h : wfEntries es = true) (hmem : (k, v) ∈ es) :
    wfJ v = true := by
  induction es with
  | nil => cases hmem
  | cons p rest ih =>
      obtain ⟨k', v'⟩ := p
      obtain ⟨_, h2, h3⟩ := wfEntries_cons h
      rcases List.mem_cons.mp hmem with heq | hmem'
      · cases heq; exact h2
      · exact ih h3 hmem'

theorem wfList_mem {l : List JValue} {v : JValue}
    (h : wfList l = true) (hmem : v ∈ l) : wfJ v = true := by
  induction l with
  | nil => cases hmem
  | cons w rest ih =>
      simp only [wfList, Bool.and_eq_true] at h
      rcases List.mem_cons.mp hmem with heq | hmem'
      · subst heq; exact h.1
      · exact ih h.2 hmem'

theorem jsGet_cons (p : String × JValue) (rest : List (String × JValue))
    (k : String) :
    jsGet (p :: rest) k = if p.1 = k then some p.2 else jsGet rest k := by
  simp only [jsGet, List.find?_cons]
  by_cases h : p.1 = k <;> simp [h]

theorem any_key_eq_false {es : List (String × JValue)} {k : String}
    (h : ∀ p ∈ es, p.1 ≠ k) : es.any (fun p => p.1 = k) = false := by
  simp only [List.any_eq_false, decide_eq_true_eq]
  exact h

theorem any_key_of_get {es : List (String × JValue)} {k : String} {v : JValue}
    (h : jsGet es k = some v) : es.any (fun p => p.1 = k) = true := by
  induction es with
  | nil => simp [jsGet] at h
  | cons p rest ih =>
      rw [jsGet_cons] at h
      by_cases hk : p.1 = k
      · simp [List.any_cons, hk]
      · rw [if_neg hk] at h
        simp [List.any_cons, ih h]

theorem jsGet_eq_of_mem {es : List (String × JValue)} {k : String} {v : JValue}
    (hnd : keysNodup es) (hmem : (k, v) ∈ es) : jsGet es k = some v := by
  induction es with
  | nil => cases hmem
  | cons p rest ih =>
      obtain ⟨k', v'⟩ := p
      simp only [keysNodup, List.map_cons, List.nodup_cons] at hnd
      rw [jsGet_cons]
      rcases List.mem_cons.mp hmem with heq | hmem'
      · cases heq; simp
      · by_cases hk : k' = k
        · subst hk
          exact absurd (List.mem_map.mpr ⟨(k', v), hmem', rfl⟩) hnd.1
        · rw [if_neg hk]
          exact ih hnd.2 hmem'

theorem map_set_untouched {rest : List (String × JValue)} {k : String}
    {v : JValue} (h : ∀ p ∈ rest, p.1 ≠ k) :
    rest.map (fun p => if p.1 = k then (k, v) else p) = rest := by
  induction rest with
  | nil => rfl
  | cons q qs ih =>
      simp only [List.map_cons]
      rw [if_neg (h q (List.mem_cons_self _ _)),
        ih (fun p hp => h p (List.mem_cons_of_mem _ hp))]

theorem jsSet_id {es : List (String × JValue)} {k : String} {v : JValue}
    (hnd : keysNodup es) (hget : jsGet es k = some v) : jsSet es k v = es := by
  induction es with
  | nil => simp [jsGet] at hget
  | cons p rest ih =>
      obtain ⟨k', v'⟩ := p
      simp only [keysNodup, List.map_cons, List.nodup_cons] at hnd
      rw [jsGet_cons] at hget
      by_cases hk : k' = k
      · rw [if_pos hk] at hget
        obtain rfl : v' = v := by injection hget
        subst hk
        have hrest : ∀ p ∈ rest, p.1 ≠ k' := by
          intro p hp hpk
          exact hnd.1 (List.mem_map.mpr ⟨p, hp, hpk⟩)
        simp only [jsSet, List.any_cons, decide_eq_true_eq]
        rw [if_pos (by simp)]
        simp only [List.map_cons]
        rw [map_set_untouched hrest]
        simp
      · rw [if_neg hk] at hget
        have hrest := ih hnd.2 hget
        have hany : rest.any (fun p => p.1 = k) = true := any_key_of_get hget
        have hmap : rest.map (fun p => if p.1 = k then (k, v) else p) = rest := by
          have := hrest
          rwa [jsSet, if_pos hany] at this
        simp only [jsSet, List.any_cons, decide_eq_true_eq]
        rw [if_pos (by simp [hany])]
        simp only [List.map_cons, if_neg hk]
        rw [hmap]

theorem jsSet_fresh {es : List (String × JValue)} {k : String}
    (h : es.any (fun p => p.1 = k) = false) (v : JValue) :
    jsSet es k v = es ++ [(k, v)] := by
  simp [jsSet, h]

theorem jsAssign_fresh :
    ∀ {src acc : List (String × JValue)}, (src.map Prod.fst).Nodup →
    (∀ p ∈ src, ∀ q ∈ acc, q.1 ≠ p.1) → jsAssign acc src = acc ++ src := by
  intro src
  induction src with
  | nil => intro acc _ _; simp [jsAssign]
  | cons p rest ih =>
      intro acc hnd hfresh
      obtain ⟨k, v⟩ := p
      simp only [List.map_cons, List.nodup_cons] at hnd
      simp only [jsAssign, List.foldl_cons]
      rw [show List.foldl (fun a q => jsSet a q.1 q.2) (jsSet acc k v) rest
          = jsAssign (jsSet acc k v) rest from rfl]
      rw [jsSet_fresh (any_key_eq_false
        (fun q hq => hfresh (k, v) (List.mem_cons_self _ _) q hq)) v]
      rw [ih hnd.2 ?_]
      · simp
      · intro q hq r hr
        rcases List.mem_append.mp hr with hr' | hr'
        · exact hfresh q (List.mem_cons_of_mem _ hq) r hr'
        · simp only [List.mem_singleton] at hr'
          subst hr'
          intro hcontra
          exact hnd.1 (List.mem_map.mpr ⟨q, hq, hcontra.symm⟩)

theorem sizeOf_snd_lt_of_mem {es : List (String × JValue)} {k : String}
    {v : JValue} (h : (k, v) ∈ es) : sizeOf v < sizeOf es := by
  have h1 : sizeOf (k, v) < sizeOf es := List.sizeOf_lt_of_mem h
  have h2 : sizeOf v < sizeOf (k, v) := by simp [Prod.mk.sizeOf_spec]
  omega

/-! ## C5 — idempotence of `deepMerge` into an empty accumulator -/

/-- The generic self-merge loop: running the `deepMerge` loop over entries
of `D` with target and accumulator `D` leaves `D` unchanged, provided keys
are unique and every entry value merges idempotently with itself (or is
not a mergeable object). -/
theorem mergeFold_self {D : List (String × JValue)} (hnd : keysNodup D)
    (hself : ∀ k v, (k, v) ∈ D →
      deepMerge v v = v ∨ (typeofObject v && !isArray v) = false) :
    ∀ src, (∀ p ∈ src, p ∈ D) → mergeFold (.obj D) D src = D := by
  intro src
  induction src with
  | nil => intro _; rfl
  | cons p rest ih =>
      intro hsub
      obtain ⟨k, sv⟩ := p
      have hmem : (k, sv) ∈ D := hsub _ (List.mem_cons_self _ _)
      have hget : jsGet D k = some sv := jsGet_eq_of_mem hnd hmem
      have hgp : getProp (.obj D) k = some sv := hget
      have hcond : mergeCond (.obj D) k sv = (typeofObject sv && !isArray sv) := by
        simp [mergeCond, hgp, Bool.and_self]
      simp only [mergeFold, List.foldl_cons, hcond, hgp]
      have hstep : (if (typeofObject sv && !isArray sv) = true then
          jsSet D k (deepMerge ((some sv).getD .null) sv)
        else jsSet D k sv) = D := by
        by_cases hc : (typeofObject sv && !isArray sv) = true
        · rw [if_pos hc, Option.getD_some]
          rcases hself k sv hmem with hm | hm
          · rw [hm]; exact jsSet_id hnd hget
          · rw [hc] at hm; cases hm
        · rw [if_neg hc]
          exact jsSet_id hnd hget
      rw [hstep]
      exact ih (fun q hq => hsub q (List.mem_cons_of_mem _ hq))

theorem mergeCond_empty (k : String) (sv : JValue) :
    mergeCond (.obj []) k sv = false := by
  simp [mergeCond, show getProp (.obj []) k = none from rfl]

theorem mergeFold_empty_target (src acc : List (String × JValue)) :
    mergeFold (.obj []) acc src = jsAssign acc src := by
  unfold mergeFold jsAssign
  apply foldl_congr_mem
  intro b p _
  simp [mergeCond_empty]

theorem deepMerge_self_obj_aux :
    ∀ (n : Nat) (es : List (String × JValue)), sizeOf es ≤ n →
      wfEntries es = true → deepMerge (.obj es) (.obj es) = .obj es := by
  intro n
  induction n with
  | zero =>
      intro es h _
      exfalso
      cases es <;> simp_all
  | succ n ih =>
      intro es hsz hwf
      have hloop : mergeFold (.obj es) es es = es := by
        apply mergeFold_self (wfEntries_nodup hwf) ?_ es (fun p hp => hp)
        intro k v hmem
        cases v with
        | obj ces =>
            left
            apply ih ces ?_ (by simpa [wfJ] using wfEntries_mem_wfJ hwf hmem)
            have := sizeOf_snd_lt_of_mem hmem
            simp only [JValue.obj.sizeOf_spec] at this
            omega
        | null => left; exact deepMerge_null_null
        | arr l => right; simp [isArray]
        | str s => right; simp [typeofObject]
        | num m => right; simp [typeofObject]
        | bool b => right; simp [typeofObject]
      rw [deepMerge_obj_obj, hloop]

theorem deepMerge_self_obj {es : List (String × JValue)}
    (h : wfEntries es = true) : deepMerge (.obj es) (.obj es) = .obj es :=
  deepMerge_self_obj_aux (sizeOf es) es le_rfl h

/-- C5: for every well-formed parsed data value `d` (objects with unique
keys, as produced by every parse), merging `d` into an empty accumulator
twice yields the same result as merging it once:
`deepMerge (deepMerge {} d) d = deepMerge {} d`. -/
theorem c5_merge_idempotent (d : JValue) (hwf : wfJ d = true) :
    deepMerge (deepMerge (.obj []) d) d = deepMerge (.obj []) d := by
  cases d with
  | str s =>
      have h1 := @deepMerge_obj_notmergeable [] (.str s) rfl
      rw [h1]; exact h1
  | num m =>
      have h1 := @deepMerge_obj_notmergeable [] (.num m) rfl
      rw [h1]; exact h1
  | bool b =>
      have h1 := @deepMerge_obj_notmergeable [] (.bool b) rfl
      rw [h1]; exact h1
  | null =>
      have h1 := @deepMerge_obj_notmergeable [] (.null) rfl
      rw [h1]; exact h1
  | obj ses =>
      have hwf' : wfEntries ses = true := by simpa [wfJ] using hwf
      have h1 : deepMerge (.obj []) (.obj ses) = .obj ses := by
        rw [deepMerge_obj_obj, mergeFold_empty_target ses []]
        rw [jsAssign_fresh (wfEntries_nodup hwf') (by intro p _ q hq; cases hq)]
        rfl
      rw [h1]
      exact deepMerge_self_obj hwf'
  | arr l =>
      have hwf' : wfList l = true := by simpa [wfJ] using hwf
      have hEnodup : keysNodup (spreadEntries (.arr l)) := by
        simp only [keysNodup, spreadEntries, List.map_map]
        have h2 : (l.enum.map (Prod.fst ∘ fun p => ((toString p.1 : String), p.2)))
            = (l.enum.map Prod.fst).map (fun i => (toString i : String)) := by
          rw [List.map_map]
          rfl
        rw [h2, List.enum_map_fst]
        exact (List.nodup_range _).map toString_nat_injective
      have hEmem : ∀ k v, (k, v) ∈ spreadEntries (.arr l) → wfJ v = true := by
        intro k v hmem
        simp only [spreadEntries, List.mem_map] at hmem
        obtain ⟨⟨i, w⟩, hw, heq⟩ := hmem
        obtain rfl : w = v := by cases heq; rfl
        exact wfList_mem hwf' (List.snd_mem_of_mem_enum hw)
      have h1 : deepMerge (.obj []) (.arr l) = .obj (spreadEntries (.arr l)) := by
        rw [deepMerge_obj_arr, mergeFold_empty_target]
        rw [jsAssign_fresh (by simpa [keysNodup] using hEnodup)
          (by intro p _ q hq; cases hq)]
        rfl
      rw [h1, deepMerge_obj_arr]
      rw [mergeFold_self hEnodup ?_ (spreadEntries (.arr l)) (fun p hp => hp)]
      intro k v hmem
      cases v with
      | obj ces =>
          left
          exact deepMerge_self_obj (by simpa [wfJ] using hEmem k _ hmem)
      | null => left; exact deepMerge_null_null
      | arr x => right; simp [isArray]
      | str s => right; simp [typeofObject]
      | num m => right; simp [typeofObject]
      | bool b => right; simp [typeofObject]

/-- C5 witness: the theorem applied at a concrete well-formed object. -/
theorem c5_witness :
    deepMerge (deepMerge (.obj []) (.obj [("a", .str "x"), ("b", .obj [("c", .num 1)])]))
        (.obj [("a", .str "x"), ("b", .obj [("c", .num 1)])])
      = deepMerge (.obj []) (.obj [("a", .str "x"), ("b", .obj [("c", .num 1)])]) :=
  c5_merge_idempotent _ (by decide)

/-! ## C1 — the resolver computes the spec's ordered three-strategy scan -/

theorem nsLoop_found (key : String) (parts : List String) (v : Option JValue)
    (nss : List (String × JValue)) : nsLoop key parts nss (v, true) = (v, true) := by
  induction nss with
  | nil => rfl
  | cons p rest ih => obtain ⟨ns, data⟩ := p; simp [nsLoop]

theorem resolveStrategies_eq (key : String) (data : JValue) :
    resolveStrategies key data =
      match getProp data key with
      | some v => some v
      | none =>
        match strat2 data (splitDot key) with
        | some v => some v
        | none =>
          if 1 < (splitDot key).length then
            getProp data ((splitDot key).getLastD "")
          else none := by
  unfold resolveStrategies
  cases getProp data key <;> cases strat2 data (splitDot key) <;>
    simp [Option.orElse]

theorem nsLoop_eq_findSome (key : String) (nss : List (String × JValue)) :
    (nsLoop key (splitDot key) nss (none, false)).1
      = nss.findSome? (fun q => resolveStrategies key q.2) := by
  induction nss with
  | nil => rfl
  | cons p rest ih =>
      obtain ⟨ns, data⟩ := p
      rw [List.findSome?_cons, resolveStrategies_eq key data]
      simp only [nsLoop, Bool.false_eq_true, if_false]
      cases h1 : getProp data key with
      | some v => simp [nsLoop_found]
      | none =>
        cases h2 : strat2 data (splitDot key) with
        | some v => simp [nsLoop_found]
        | none =>
          by_cases h3 : 1 < (splitDot key).length
          · simp only [if_pos h3]
            cases h4 : getProp data ((splitDot key).getLastD "") with
            | some v => simp [nsLoop_found]
            | none => exact ih
          · simp only [if_neg h3]
            exact ih

/-- C1 (amended): for every loaded locale tree and every *nonempty* key,
`getTranslationsForKey` computes each locale's value by scanning that
locale's namespaces in order, applying within each namespace the exact
flattened lookup, then segment navigation, then (for multi-segment keys)
the trailing-segment lookup, and stopping at the first namespace that
yields a value.  (The empty key is answered by an early guard instead.) -/
theorem c1_resolution_matches_spec (key : String) (ld : LocaleData)
    (h : key ≠ "") : getTranslationsForKey key ld = specResolve key ld := by
  have hfun : (fun (result : List (String × JValue))
        (p : String × List (String × JValue)) =>
      match (nsLoop key (splitDot key) p.2 (none, false)).1 with
      | some v => jsSet result p.1 v
      | none => result)
    = (fun result p =>
      match p.2.findSome? (fun q => resolveStrategies key q.2) with
      | some v => jsSet result p.1 v
      | none => result) := by
    funext result p
    rw [nsLoop_eq_findSome]
  simp only [getTranslationsForKey, specResolve, if_neg h]
  rw [hfun]

/-- C1 witness: the amended theorem applied at a concrete nonempty key. -/
theorem c1_witness :
    getTranslationsForKey "a" [("en", [("common", .obj [("a", .str "A")])])]
      = specResolve "a" [("en", [("common", .obj [("a", .str "A")])])] :=
  c1_resolution_matches_spec "a" _ (by decide)

/-- The loaded tree refuting C1 as stated: a namespace whose flattened map
binds the empty key. -/
def c1LocaleData : LocaleData := [("en", [("common", .obj [("", .str "X")])])]

/-- C1 counterexample: for the empty key the code's early `!key` guard
returns an empty result, while the claimed three-strategy scan finds the
empty key's binding by exact lookup. -/
theorem c1_counterexample :
    getTranslationsForKey "" c1LocaleData ≠ specResolve "" c1LocaleData := by
  intro h
  rw [show getTranslationsForKey "" c1LocaleData = [] from rfl,
      show specResolve "" c1LocaleData = [("en", .str "X")] from rfl] at h
  exact List.noConfusion h

/-! ## C2 — resolving a single-segment key against nested-only data -/

/-- The locale tree of C2: one locale `en`, one namespace holding the
loader's flattening of `{ common: { greet: "Hi" } }`. -/
def c2LocaleData : LocaleData :=
  [("en", [("common",
    .obj (flattenObject (.obj [("common", .obj [("greet", .str "Hi")])]) ""))])]

/-- C2 counterexample: resolving the single-segment key `"greet"` does not
return `"Hi"` — the trailing-segment fallback is guarded by
`parts.length > 1` and never runs for a one-segment key, and neither other
strategy matches. -/
theorem c2_counterexample :
    jsGet (getTranslationsForKey "greet" c2LocaleData) "en"
      ≠ some (JValue.str "Hi") := by
  intro h
  rw [show getTranslationsForKey "greet" c2LocaleData = [] from rfl] at h
  simp [jsGet] at h

/-- C2 (amended): for that locale tree the single-segment key `"greet"`
resolves to nothing (the trailing-segment fallback applies only to keys
with more than one segment); the value is reachable as `"common.greet"`
via the exact flattened-map lookup. -/
theorem c2_amended :
    getTranslationsForKey "greet" c2LocaleData = [] ∧
    getTranslationsForKey "common.greet" c2LocaleData
      = [("en", JValue.str "Hi")] :=
  ⟨rfl, rfl⟩

/-! ## C3 — the translation cache survives a refresh -/

def c3OldData : LocaleData := [("en", [("common", .obj [("greet", .str "Hi")])])]

def c3NewData : LocaleData := [("en", [("common", .obj [("greet", .str "Hello")])])]

/-- C3: the failing run.  Resolving `"greet"` caches `"Hi"`; `refreshLocales`
replaces the locale data but never invokes `clearTranslationCache`, so the
next resolve still returns the stale `"Hi"` although the new tree resolves
the key to `"Hello"`. -/
theorem c3_stale_cache_after_refresh :
    (getTranslationsForKeyCached "greet"
        (refreshLocales c3NewData
          (getTranslationsForKeyCached "greet" ⟨c3OldData, []⟩).2)).1
      = [("en", JValue.str "Hi")] ∧
    getTranslationsForKey "greet" c3NewData = [("en", JValue.str "Hello")] ∧
    JValue.str "Hi" ≠ JValue.str "Hello" := by
  refine ⟨rfl, rfl, ?_⟩
  intro h
  injection h with h'
  exact absurd h' (by decide)

/-! ## C7 — called-name resolution for member-access callees -/

/-- The callee refuting C7 as stated: `foo.global.t`, whose outer object is
not `i18n`. -/
def c7Callee : Expr := .member (.member (.ident "foo") (.ident "global")) (.ident "t")

/-- C7 counterexample: on `foo.global.t` the code resolves the name to
`"i18n.global.t"` unconditionally, while the claim's rule yields
`"global.t"` because the next outer object is not the identifier `i18n`. -/
theorem c7_counterexample :
    resolveMethodName c7Callee ≠ specResolveName c7Callee := by
  intro h
  rw [show resolveMethodName c7Callee = "i18n.global.t" from rfl,
      show specResolveName c7Callee = "global.t" from rfl] at h
  exact absurd h (by decide)

/-- C7 (amended): for a callee `a.b` with identifier property `b`, the name
is `"i18n.global.b"` whenever `a` is a member access whose property is the
identifier `global` — regardless of the outer object — and `"i18n.b"` when
`a` is the bare identifier `i18n`, otherwise `b`; a call is recognized as a
translation call only when the resolved name is among the configured
method names. -/
theorem c7_amended :
    (∀ (o : Expr) (pn b : String),
        resolveMethodName (.member (.member o (.ident pn)) (.ident b))
          = if pn = "global" then "i18n.global." ++ b else b) ∧
    (∀ (objName b : String),
        resolveMethodName (.member (.ident objName) (.ident b))
          = if objName = "i18n" then "i18n." ++ b else b) ∧
    (∀ (b : String), resolveMethodName (.member .otherExpr (.ident b)) = b) ∧
    (∀ (methods : List String) (c : CallNode),
      isTranslationCall methods c = true →
        methods.contains (resolveMethodName c.callee) = true) := by
  refine ⟨fun o pn b => rfl, fun objName b => rfl, fun b => rfl, ?_⟩
  intro methods c h
  simp only [isTranslationCall, Bool.and_eq_true] at h
  exact h.1.1

/-! ## C10 — empty stripped key paths leave the file data unchanged -/

/-- C10: `setNestedValue` with an empty key path returns the object
unmodified, and a write whose single-segment key equals the selected
namespace (so the stripped path is empty) rewrites the target file with its
original data unchanged. -/
theorem c10_empty_path_write_noop (k locale : String) (d v : JValue)
    (hk : '.' ∉ k.data) (hv : truthy v = true) :
    (∀ (o w : JValue), setNested o [] w = o) ∧
    saveTranslation k [(locale, v)] [(locale, [(k, [LocFile.jsonFile d])])]
      = [(locale, SaveOutcome.written (LocFile.jsonFile d))] := by
  refine ⟨fun o w => rfl, ?_⟩
  have hsplit : splitDot k = [k] := splitDot_no_dot hk
  simp [saveTranslation, hsplit, hv, filesFor, selectTarget, saveLocaleFile,
    setNested]

/-- C10 witness: the theorem applied to the key `"home"`, value `"x"`, and
a file indexed under namespace `"home"` for locale `"es"`. -/
theorem c10_witness :
    setNested (.obj [("a", .str "b")]) [] (.str "x") = .obj [("a", .str "b")] ∧
    saveTranslation "home" [("es", .str "x")]
        [("es", [("home", [LocFile.jsonFile (.obj [("a", .str "b")])])])]
      = [("es", SaveOutcome.written (LocFile.jsonFile (.obj [("a", .str "b")])))] :=
  ⟨(c10_empty_path_write_noop "home" "es" (.obj [("a", .str "b")]) (.str "x")
      (by decide) (by decide)).1 _ _,
   (c10_empty_path_write_noop "home" "es" (.obj [("a", .str "b")]) (.str "x")
      (by decide) (by decide)).2⟩

/-! ## C8 — the `"home.title"` write round-trip -/

/-- Evaluation of a single-locale write against an index holding one file
under one namespace: the file is chosen either as the namespace match or as
the fallback, and the key path is stripped exactly on a namespace match. -/
theorem saveTranslation_single (key locale ns : String) (v : JValue)
    (f : LocFile) (hv : truthy v = true) :
    saveTranslation key [(locale, v)] [(locale, [(ns, [f])])]
      = [(locale, saveLocaleFile
          (if ns = (splitDot key).headD "" then (splitDot key).tail
           else splitDot key) v f)] := by
  by_cases h : ns = (splitDot key).headD "" <;>
    simp [saveTranslation, filesFor, selectTarget, hv, h,
      List.headD_eq_head?_getD]
  by_cases h2 : ns = (splitDot key).head?.getD "" <;> simp [h2]

/-- The C8 target file: JSON content `{"home":{"title":"Hi"}}`. -/
def c8File : LocFile := .jsonFile (.obj [("home", .obj [("title", .str "Hi")])])

/-- C8 counterexample: with the file indexed under namespace `"home"` —
equal to the key's first segment — that segment is stripped, the remaining
path `["title"]` is set at top level, and the written content is
`{"home":{"title":"Hi"},"title":"Hola"}`, not the claimed result. -/
theorem c8_counterexample :
    saveTranslation "home.title" [("es", .str "Hola")]
        [("es", [("home", [c8File])])]
      ≠ [("es", .written (.jsonFile (.obj [("home", .obj [("title", .str "Hola")])])))] := by
  intro h
  rw [show saveTranslation "home.title" [("es", .str "Hola")]
        [("es", [("home", [c8File])])]
      = [("es", .written (.jsonFile (.obj [("home", .obj [("title", .str "Hi")]),
          ("title", .str "Hola")])))] from rfl] at h
  simp at h

/-- C8 (amended): the write produces `{"home":{"title":"Hola"}}` exactly
when the chosen target is selected under a namespace other than `"home"`,
and re-loading that file and resolving `"home.title"` then returns
`"Hola"`; when the target is indexed under namespace `"home"`, the first
segment is stripped and the file becomes
`{"home":{"title":"Hi"},"title":"Hola"}`. -/
theorem c8_amended (ns : String) (hns : ns ≠ "home") :
    saveTranslation "home.title" [("es", .str "Hola")]
        [("es", [(ns, [c8File])])]
      = [("es", .written (.jsonFile (.obj [("home", .obj [("title", .str "Hola")])])))] ∧
    jsGet (getTranslationsForKey "home.title"
        [("es", [(ns, .obj (loadNamespaceData
            [.obj [("home", .obj [("title", .str "Hola")])]]))])]) "es"
      = some (.str "Hola") ∧
    saveTranslation "home.title" [("es", .str "Hola")]
        [("es", [("home", [c8File])])]
      = [("es", .written (.jsonFile (.obj [("home", .obj [("title", .str "Hi")]),
          ("title", .str "Hola")])))] := by
  refine ⟨?_, rfl, rfl⟩
  rw [saveTranslation_single "home.title" "es" ns (.str "Hola") c8File rfl]
  rw [show ((splitDot "home.title").headD "") = "home" from rfl, if_neg hns]
  rfl

/-- C8 witness: the amended theorem at the concrete namespace `"common"`. -/
theorem c8_witness :
    saveTranslation "home.title" [("es", .str "Hola")]
        [("es", [("common", [c8File])])]
      = [("es", .written (.jsonFile (.obj [("home", .obj [("title", .str "Hola")])])))] :=
  (c8_amended "common" (by decide)).1

/-! ## C9 — per-locale write isolation -/

/-- C9: every locale of a `saveTranslation` batch is processed
independently — the batch result is the per-locale map of single-locale
results — and in particular a locale whose JS/TS target has no locatable
`export default` fails alone while a later locale with a valid JSON target
is still written. -/
theorem c9_write_isolation :
    (∀ (key : String) (translations : List (String × JValue))
        (lf : LocaleFiles),
      saveTranslation key translations lf
        = translations.map (fun lv =>
            (saveTranslation key [lv] lf).headD (lv.1, .skipped))) ∧
    saveTranslation "home.title" [("es", .str "Hola"), ("fr", .str "Salut")]
        [("es", [("common", [LocFile.jsFileNoExport])]),
         ("fr", [("common", [LocFile.jsonFile (.obj [])])])]
      = [("es", .exportNotFound),
         ("fr", .written (.jsonFile (.obj [("home", .obj [("title", .str "Salut")])])))] :=
  ⟨fun _ _ _ => rfl, rfl⟩

/-! ## C4/C6 — dotted-key algebra for `flattenObject`

`flattenObject` builds each nested key as
`prefix ? prefix + "." + key : key`.  The lemmas below show that when all
object keys are dot-free and nonempty these composite keys are pairwise
distinct across sibling subtrees, which is what makes the flattened map a
faithful path encoding. -/

/-- The composite key `prefix ? prefix + "." + key : key` built by
`flattenObject` for an entry key `k` under prefix `pfx`. -/
def mkKey (pfx k : String) : String := if pfx = "" then k else pfx ++ "." ++ k

theorem mkKey_empty (k : String) : mkKey "" k = k := by simp [mkKey]

theorem mkKey_of_ne {pfx : String} (h : pfx ≠ "") (k : String) :
    mkKey pfx k = pfx ++ "." ++ k := by simp [mkKey, h]

theorem string_eq_of_data {s t : String} (h : s.data = t.data) : s = t := by
  cases s
  cases t
  exact congrArg String.mk h

theorem deep_data (s r : String) :
    (s ++ "." ++ r).data = s.data ++ '.' :: r.data := by
  simp [String.data_append]

theorem deep_assoc (pfx k r : String) :
    pfx ++ "." ++ k ++ "." ++ r = pfx ++ "." ++ (k ++ "." ++ r) := by
  apply string_eq_of_data
  simp [String.data_append]

theorem mkKey_data {pfx : String} (hp : pfx ≠ "") (k : String) :
    (mkKey pfx k).data = pfx.data ++ '.' :: k.data := by
  rw [mkKey_of_ne hp, deep_data]

theorem mkKey_append (pfx a b : String) :
    mkKey pfx (a ++ "." ++ b) = mkKey pfx a ++ "." ++ b := by
  by_cases hp : pfx = ""
  · rw [hp, mkKey_empty, mkKey_empty]
  · rw [mkKey_of_ne hp, mkKey_of_ne hp, deep_assoc]

theorem mkKey_ne_empty {pfx k : String} (h : pfx = "" → k ≠ "") :
    mkKey pfx k ≠ "" := by
  by_cases hp : pfx = ""
  · rw [hp, mkKey_empty]; exact h hp
  · intro hc
    have hd := congrArg String.data hc
    rw [mkKey_data hp] at hd
    have h0 : ("" : String).data = [] := rfl
    rw [h0] at hd
    simp at hd

/-- A dot-free character list never equals a dotted concatenation. -/
theorem nodot_ne_append_dot {k a r : List Char} (hk : '.' ∉ k) :
    k ≠ a ++ '.' :: r := by
  intro h
  apply hk
  rw [h]
  exact List.mem_append.mpr (Or.inr (List.mem_cons_self _ _))

theorem takeWhile_nodot (l : List Char) (h : '.' ∉ l) (m : List Char) :
    (l ++ '.' :: m).takeWhile (fun c => c != '.') = l := by
  induction l with
  | nil => simp [List.takeWhile_cons]
  | cons c cs ih =>
      simp only [List.mem_cons, not_or] at h
      have hc : c ≠ '.' := fun hc => h.1 hc.symm
      simp only [List.cons_append, List.takeWhile_cons]
      simp [hc, ih h.2]

/-- Two dotted concatenations with dot-free heads agree only head-by-head. -/
theorem append_dot_inj {k r : List Char} (k' r' : List Char) (hk : '.' ∉ k)
    (hk' : '.' ∉ k') (h : k ++ '.' :: r = k' ++ '.' :: r') : k = k' := by
  have := congrArg (List.takeWhile (fun c => c != '.')) h
  rwa [takeWhile_nodot k hk r, takeWhile_nodot k' hk' r'] at this

theorem mkKey_inj {pfx k k' : String} (h : mkKey pfx k = mkKey pfx k') :
    k = k' := by
  by_cases hp : pfx = ""
  · rw [hp, mkKey_empty, mkKey_empty] at h
    exact h
  · have hd := congrArg String.data h
    rw [mkKey_data hp, mkKey_data hp] at hd
    have h1 := List.append_cancel_left hd
    apply string_eq_of_data
    injection h1

theorem mkKey_ne_deep {pfx k k' : String} (r : String) (hk : '.' ∉ k.data) :
    mkKey pfx k ≠ mkKey pfx k' ++ "." ++ r := by
  intro h
  have hd := congrArg String.data h
  rw [deep_data] at hd
  by_cases hp : pfx = ""
  · rw [hp, mkKey_empty, mkKey_empty] at hd
    exact nodot_ne_append_dot hk hd
  · rw [mkKey_data hp, mkKey_data hp] at hd
    simp only [List.append_assoc, List.cons_append] at hd
    have h1 := List.append_cancel_left hd
    have h2 : k.data = k'.data ++ '.' :: r.data := by injection h1
    exact nodot_ne_append_dot hk h2

theorem deep_ne_deep {pfx k k' : String} (r r' : String) (hk : '.' ∉ k.data)
    (hk' : '.' ∉ k'.data) (hne : k ≠ k') :
    mkKey pfx k ++ "." ++ r ≠ mkKey pfx k' ++ "." ++ r' := by
  intro h
  have hd := congrArg String.data h
  rw [deep_data, deep_data] at hd
  by_cases hp : pfx = ""
  · rw [hp, mkKey_empty, mkKey_empty] at hd
    exact hne (string_eq_of_data (append_dot_inj k'.data r'.data hk hk' hd))
  · rw [mkKey_data hp, mkKey_data hp] at hd
    simp only [List.append_assoc, List.cons_append] at hd
    have h1 := List.append_cancel_left hd
    have h2 : k.data ++ '.' :: r.data = k'.data ++ '.' :: r'.data := by
      injection h1
    exact hne (string_eq_of_data (append_dot_inj k'.data r'.data hk hk' h2))

theorem self_ne_deep (s r : String) : s ≠ s ++ "." ++ r := by
  intro h
  have hd := congrArg String.data h
  rw [deep_data] at hd
  have hlen := congrArg List.length hd
  simp [List.length_append] at hlen

/-! ### Key-set lemmas for `jsSet` / `jsAssign` / `jsGet` -/

theorem any_key_false_elim {es : List (String × JValue)} {k : String}
    (h : es.any (fun p => p.1 = k) = false) : ∀ p ∈ es, p.1 ≠ k := by
  intro p hp
  have := List.any_eq_false.mp h p hp
  simpa using this

theorem jsSet_map_fst (es : List (String × JValue)) (k : String) (v : JValue) :
    (jsSet es k v).map Prod.fst
      = if es.any (fun p => p.1 = k) then es.map Prod.fst
        else es.map Prod.fst ++ [k] := by
  by_cases h : es.any (fun p => p.1 = k) = true
  · rw [if_pos h]
    simp only [jsSet, if_pos h, List.map_map]
    apply List.map_congr_left
    intro p _
    by_cases hp : p.1 = k <;> simp [Function.comp, hp]
  · rw [if_neg h]
    simp only [jsSet, if_neg h]
    simp

theorem jsSet_keysNodup {es : List (String × JValue)} (h : keysNodup es)
    (k : String) (v : JValue) : keysNodup (jsSet es k v) := by
  unfold keysNodup at h ⊢
  rw [jsSet_map_fst]
  by_cases hc : es.any (fun p => p.1 = k) = true
  · rw [if_pos hc]; exact h
  · rw [if_neg hc]
    simp only [Bool.not_eq_true] at hc
    refine List.Nodup.append h (List.nodup_singleton k) ?_
    intro a ha hb
    simp only [List.mem_singleton] at hb
    subst hb
    obtain ⟨p, hp, hpk⟩ := List.mem_map.mp ha
    exact any_key_false_elim hc p hp hpk

theorem jsAssign_keysNodup :
    ∀ {src acc : List (String × JValue)}, keysNodup acc →
      keysNodup (jsAssign acc src) := by
  intro src
  induction src with
  | nil => intro acc h; exact h
  | cons p rest ih =>
      intro acc h
      exact ih (jsSet_keysNodup h p.1 p.2)

theorem keys_jsSet_subset {es : List (String × JValue)} {k key : String}
    {v : JValue} (h : key ∈ (jsSet es k v).map Prod.fst) :
    key ∈ es.map Prod.fst ∨ key = k := by
  rw [jsSet_map_fst] at h
  by_cases hc : es.any (fun p => p.1 = k) = true
  · rw [if_pos hc] at h; exact Or.inl h
  · rw [if_neg hc] at h
    rcases List.mem_append.mp h with h1 | h1
    · exact Or.inl h1
    · simp only [List.mem_singleton] at h1
      exact Or.inr h1

theorem keys_jsAssign_subset :
    ∀ {src acc : List (String × JValue)} {key : String},
      key ∈ (jsAssign acc src).map Prod.fst →
      key ∈ acc.map Prod.fst ∨ key ∈ src.map Prod.fst := by
  intro src
  induction src with
  | nil => intro acc key h; exact Or.inl h
  | cons p rest ih =>
      intro acc key h
      have h' : key ∈ (jsAssign (jsSet acc p.1 p.2) rest).map Prod.fst := h
      rcases ih h' with h1 | h1
      · rcases keys_jsSet_subset h1 with h2 | h2
        · exact Or.inl h2
        · exact Or.inr (by simp [h2])
      · exact Or.inr (List.mem_cons_of_mem _ h1)

theorem jsGet_append (A B : List (String × JValue)) (k : String) :
    jsGet (A ++ B) k
      = match jsGet A k with
        | some v => some v
        | none => jsGet B k := by
  induction A with
  | nil => simp [jsGet]
  | cons p rest ih =>
      rw [List.cons_append, jsGet_cons, jsGet_cons]
      by_cases hp : p.1 = k
      · simp [hp]
      · simp [hp, ih]

theorem jsGet_eq_none {es : List (String × JValue)} {k : String}
    (h : ∀ p ∈ es, p.1 ≠ k) : jsGet es k = none := by
  have hf : es.find? (fun p => p.1 = k) = none :=
    List.find?_eq_none.mpr (fun p hp => by simpa using h p hp)
  simp [jsGet, hf]

theorem jsSet_has_key (es : List (String × JValue)) (k : String) (v : JValue) :
    (jsSet es k v).any (fun p => p.1 = k) = true := by
  by_cases h : es.any (fun p => p.1 = k) = true
  · simp only [jsSet, if_pos h]
    obtain ⟨p, hp, hpk⟩ := List.any_eq_true.mp h
    simp only [decide_eq_true_eq] at hpk
    refine List.any_eq_true.mpr ⟨(k, v), List.mem_map.mpr ⟨p, hp, ?_⟩, by simp⟩
    simp [hpk]
  · simp only [jsSet, if_neg h]
    exact List.any_eq_true.mpr ⟨(k, v), by simp, by simp⟩

/-- Overwriting the same key twice keeps only the second write. -/
theorem jsSet_jsSet (es : List (String × JValue)) (k : String) (w v : JValue) :
    jsSet (jsSet es k w) k v = jsSet es k v := by
  have houter : jsSet (jsSet es k w) k v
      = (jsSet es k w).map (fun p => if p.1 = k then (k, v) else p) := by
    show (if (jsSet es k w).any (fun p => p.1 = k) then
        (jsSet es k w).map (fun p => if p.1 = k then (k, v) else p)
      else jsSet es k w ++ [(k, v)]) = _
    rw [if_pos (jsSet_has_key es k w)]
  rw [houter]
  by_cases h : es.any (fun p => p.1 = k) = true
  · have hw : jsSet es k w
        = es.map (fun p => if p.1 = k then (k, w) else p) := by
      simp [jsSet, h]
    have hv : jsSet es k v
        = es.map (fun p => if p.1 = k then (k, v) else p) := by
      simp [jsSet, h]
    rw [hw, hv, List.map_map]
    apply List.map_congr_left
    intro p _
    by_cases hp : p.1 = k <;> simp [Function.comp, hp]
  · simp only [Bool.not_eq_true] at h
    have hw : jsSet es k w = es ++ [(k, w)] := jsSet_fresh h w
    have hv : jsSet es k v = es ++ [(k, v)] := jsSet_fresh h v
    rw [hw, hv, List.map_append,
      map_set_untouched (any_key_false_elim h)]
    simp

/-! ### Structure of the flattened entry list -/

theorem flattenList_nil (pfx : String) (acc : List (String × JValue)) :
    flattenList [] pfx acc = acc := rfl

theorem flattenList_cons (k : String) (v : JValue)
    (rest : List (String × JValue)) (pfx : String)
    (acc : List (String × JValue)) :
    flattenList ((k, v) :: rest) pfx acc
      = flattenList rest pfx
          (if isNonemptyObj v then
             jsSet (jsAssign acc (flattenObject v (mkKey pfx k))) (mkKey pfx k) v
           else jsSet acc (mkKey pfx k) v) := rfl

theorem flattenObject_obj (es : List (String × JValue)) (pfx : String) :
    flattenObject (.obj es) pfx = flattenList es pfx [] := rfl

theorem flattenObject_eq_nil {v : JValue} (h : isNonemptyObj v = false)
    (pfx : String) : flattenObject v pfx = [] := by
  cases v with
  | obj es =>
      cases es with
      | nil => rfl
      | cons p rest => exact absurd h (by simp [isNonemptyObj])
  | str s => rfl
  | num n => rfl
  | bool b => rfl
  | null => rfl
  | arr l => rfl

mutual
/-- Conditions under which `flattenObject`'s dotted keys faithfully encode
paths: throughout the value, object keys are pairwise distinct, dot-free
and nonempty. -/
def flattenSafe : JValue → Bool
  | .obj es => flattenSafeEntries es
  | _ => true

def flattenSafeEntries : List (String × JValue) → Bool
  | [] => true
  | (k, v) :: rest =>
      !(rest.any (fun p => p.1 = k)) && !(k.data.any (fun c => c = '.'))
        && !(k = "") && flattenSafe v && flattenSafeEntries rest
end

theorem flattenSafeEntries_cons {k : String} {v : JValue}
    {rest : List (String × JValue)}
    (h : flattenSafeEntries ((k, v) :: rest) = true) :
    rest.any (fun p => p.1 = k) = false ∧ '.' ∉ k.data ∧ k ≠ ""
      ∧ flattenSafe v = true ∧ flattenSafeEntries rest = true := by
  simp only [flattenSafeEntries, Bool.and_eq_true, Bool.not_eq_true'] at h
  obtain ⟨⟨⟨⟨h1, h2⟩, h3⟩, h4⟩, h5⟩ := h
  refine ⟨h1, ?_, ?_, h4, h5⟩
  · intro hc
    have := List.any_eq_false.mp h2 '.' hc
    simp at this
  · simpa using h3

theorem flattenSafeEntries_nodup {es : List (String × JValue)}
    (h : flattenSafeEntries es = true) : keysNodup es := by
  induction es with
  | nil => simp [keysNodup]
  | cons p rest ih =>
      obtain ⟨k, v⟩ := p
      obtain ⟨h1, _, _, _, h5⟩ := flattenSafeEntries_cons h
      simp only [keysNodup, List.map_cons, List.nodup_cons]
      refine ⟨?_, ih h5⟩
      intro hmem
      obtain ⟨q, hq, hqk⟩ := List.mem_map.mp hmem
      exact any_key_false_elim h1 q hq hqk

theorem flattenSafeEntries_keys {es : List (String × JValue)}
    (h : flattenSafeEntries es = true) :
    ∀ k ∈ es.map Prod.fst, '.' ∉ k.data ∧ k ≠ "" := by
  induction es with
  | nil => intro k hk; simp at hk
  | cons p rest ih =>
      obtain ⟨k', v⟩ := p
      obtain ⟨_, h2, h3, _, h5⟩ := flattenSafeEntries_cons h
      intro k hk
      simp only [List.map_cons, List.mem_cons] at hk
      rcases hk with rfl | hk
      · exact ⟨h2, h3⟩
      · exact ih h5 k hk

theorem flattenSafeEntries_mem {es : List (String × JValue)}
    (h : flattenSafeEntries es = true) {k : String} {v : JValue}
    (hmem : (k, v) ∈ es) : flattenSafe v = true := by
  induction es with
  | nil => cases hmem
  | cons p rest ih =>
      obtain ⟨k', v'⟩ := p
      obtain ⟨_, _, _, h4, h5⟩ := flattenSafeEntries_cons h
      rcases List.mem_cons.mp hmem with heq | hmem'
      · cases heq; exact h4
      · exact ih h5 hmem'

/-- Every key produced by `flattenList` under a nonempty prefix extends
that prefix by a dot. -/
theorem flattenList_key_shape :
    ∀ (n : Nat) (es : List (String × JValue)) (pfx : String)
      (acc : List (String × JValue)), jsizeEntries es ≤ n → pfx ≠ "" →
      (∀ key ∈ acc.map Prod.fst, ∃ r, key = pfx ++ "." ++ r) →
      ∀ key ∈ (flattenList es pfx acc).map Prod.fst,
        ∃ r, key = pfx ++ "." ++ r := by
  intro n
  induction n with
  | zero =>
      intro es pfx acc hsz hp hacc key hkey
      cases es with
      | nil => exact hacc key hkey
      | cons p rest =>
          obtain ⟨k, v⟩ := p
          exfalso
          have := jsize_pos v
          simp [jsizeEntries] at hsz
  | succ m ih =>
      intro es pfx acc hsz hp hacc key hkey
      cases es with
      | nil => exact hacc key hkey
      | cons p rest =>
          obtain ⟨k, v⟩ := p
          rw [flattenList_cons] at hkey
          have hszv : jsizeEntries ((k, v) :: rest)
              = 1 + jsize v + jsizeEntries rest := rfl
          have hrest : jsizeEntries rest ≤ m := by
            rw [hszv] at hsz
            omega
          refine ih rest pfx _ hrest hp ?_ key hkey
          intro key' hkey'
          by_cases hv : isNonemptyObj v = true
          · rw [if_pos hv] at hkey'
            rcases keys_jsSet_subset hkey' with h1 | h1
            · rcases keys_jsAssign_subset h1 with h2 | h2
              · exact hacc key' h2
              · cases v with
                | obj es₀ =>
                    have hsz₀ : jsizeEntries es₀ ≤ m := by
                      rw [hszv] at hsz
                      have : jsize (JValue.obj es₀) = 1 + jsizeEntries es₀ := rfl
                      omega
                    obtain ⟨r', hr'⟩ := ih es₀ (mkKey pfx k) [] hsz₀
                      (mkKey_ne_empty (fun hc => absurd hc hp))
                      (by intro key hk; simp at hk) key' h2
                    refine ⟨k ++ "." ++ r', ?_⟩
                    rw [hr', mkKey_of_ne hp, deep_assoc]
                | str s => simp [isNonemptyObj] at hv
                | num i => simp [isNonemptyObj] at hv
                | bool b => simp [isNonemptyObj] at hv
                | null => simp [isNonemptyObj] at hv
                | arr l => simp [isNonemptyObj] at hv
            · exact ⟨k, by rw [h1, mkKey_of_ne hp]⟩
          · rw [if_neg hv] at hkey'
            rcases keys_jsSet_subset hkey' with h1 | h1
            · exact hacc key' h1
            · exact ⟨k, by rw [h1, mkKey_of_ne hp]⟩

theorem flattenObject_key_shape {v : JValue} {pfx : String} (hp : pfx ≠ "") :
    ∀ key ∈ (flattenObject v pfx).map Prod.fst, ∃ r, key = pfx ++ "." ++ r := by
  cases v with
  | obj es =>
      exact flattenList_key_shape (jsizeEntries es) es pfx [] le_rfl hp
        (by intro key hk; simp at hk)
  | str s => intro key hk; simp [flattenObject] at hk
  | num i => intro key hk; simp [flattenObject] at hk
  | bool b => intro key hk; simp [flattenObject] at hk
  | null => intro key hk; simp [flattenObject] at hk
  | arr l => intro key hk; simp [flattenObject] at hk

theorem flattenList_keysNodup :
    ∀ (es : List (String × JValue)) (pfx : String)
      (acc : List (String × JValue)),
      keysNodup acc → keysNodup (flattenList es pfx acc) := by
  intro es
  induction es with
  | nil => intro pfx acc h; exact h
  | cons p rest ih =>
      intro pfx acc h
      obtain ⟨k, v⟩ := p
      rw [flattenList_cons]
      apply ih
      by_cases hv : isNonemptyObj v = true
      · rw [if_pos hv]
        exact jsSet_keysNodup (jsAssign_keysNodup h) _ _
      · rw [if_neg hv]
        exact jsSet_keysNodup h _ _

theorem flattenObject_keysNodup (v : JValue) (pfx : String) :
    keysNodup (flattenObject v pfx) := by
  cases v with
  | obj es => exact flattenList_keysNodup es pfx [] List.nodup_nil
  | str s => exact List.nodup_nil
  | num i => exact List.nodup_nil
  | bool b => exact List.nodup_nil
  | null => exact List.nodup_nil
  | arr l => exact List.nodup_nil

/-- The block of flattened entries contributed by one top-level entry:
the recursively flattened subtree followed by the node itself at its own
composite key. -/
def flatGroup (pfx : String) (p : String × JValue) : List (String × JValue) :=
  flattenObject p.2 (mkKey pfx p.1) ++ [(mkKey pfx p.1, p.2)]

/-- With pairwise-distinct, dot-free, nonempty sibling keys, the flatten
loop appends each entry's group to the accumulator in iteration order. -/
theorem flattenList_structure :
    ∀ (es : List (String × JValue)) (pfx : String)
      (acc : List (String × JValue)),
      (es.map Prod.fst).Nodup →
      (∀ k ∈ es.map Prod.fst, '.' ∉ k.data ∧ k ≠ "") →
      keysNodup acc →
      (∀ key ∈ acc.map Prod.fst, ∀ q ∈ es,
          key ≠ mkKey pfx q.1 ∧ ∀ r, key ≠ mkKey pfx q.1 ++ "." ++ r) →
      flattenList es pfx acc = acc ++ es.flatMap (flatGroup pfx) := by
  intro es
  induction es with
  | nil =>
      intro pfx acc _ _ _ _
      rw [flattenList_nil]
      simp
  | cons p rest ih =>
      intro pfx acc hnd hkeys haccnd hfresh
      obtain ⟨k, v⟩ := p
      obtain ⟨hdot, hne⟩ := hkeys k (by simp)
      simp only [List.map_cons, List.nodup_cons] at hnd
      have hkne : ∀ q ∈ rest, k ≠ q.1 := by
        intro q hq hc
        exact hnd.1 (List.mem_map.mpr ⟨q, hq, hc.symm⟩)
      have hNKne : mkKey pfx k ≠ "" := mkKey_ne_empty (fun _ => hne)
      have hshape : ∀ key ∈ (flattenObject v (mkKey pfx k)).map Prod.fst,
          ∃ r, key = mkKey pfx k ++ "." ++ r :=
        flattenObject_key_shape hNKne
      have hndnested : keysNodup (flattenObject v (mkKey pfx k)) :=
        flattenObject_keysNodup v _
      have hfreshN : ∀ q ∈ flattenObject v (mkKey pfx k), ∀ a ∈ acc,
          a.1 ≠ q.1 := by
        intro q hq a ha
        obtain ⟨r, hr⟩ := hshape q.1 (List.mem_map.mpr ⟨q, hq, rfl⟩)
        rw [hr]
        exact (hfresh a.1 (List.mem_map.mpr ⟨a, ha, rfl⟩) (k, v) (by simp)).2 r
      have hassign : jsAssign acc (flattenObject v (mkKey pfx k))
          = acc ++ flattenObject v (mkKey pfx k) :=
        jsAssign_fresh hndnested hfreshN
      have hNKacc : ∀ q ∈ acc, q.1 ≠ mkKey pfx k := by
        intro q hq
        exact (hfresh q.1 (List.mem_map.mpr ⟨q, hq, rfl⟩) (k, v) (by simp)).1
      have hNKfresh : ((acc ++ flattenObject v (mkKey pfx k)).any
          (fun q => q.1 = mkKey pfx k)) = false := by
        apply any_key_eq_false
        intro q hq
        rcases List.mem_append.mp hq with h1 | h1
        · exact hNKacc q h1
        · obtain ⟨r, hr⟩ := hshape q.1 (List.mem_map.mpr ⟨q, h1, rfl⟩)
          rw [hr]
          exact Ne.symm (self_ne_deep (mkKey pfx k) r)
      have hacc' : (if isNonemptyObj v = true then
            jsSet (jsAssign acc (flattenObject v (mkKey pfx k))) (mkKey pfx k) v
          else jsSet acc (mkKey pfx k) v)
          = acc ++ flatGroup pfx (k, v) := by
        by_cases hv : isNonemptyObj v = true
        · rw [if_pos hv, hassign, jsSet_fresh hNKfresh v]
          simp [flatGroup]
        · rw [if_neg hv,
            jsSet_fresh (any_key_eq_false hNKacc) v]
          have hnil : flattenObject v (mkKey pfx k) = [] :=
            flattenObject_eq_nil (Bool.not_eq_true _ ▸ hv) _
          simp [flatGroup, hnil]
      have hkeys' : ∀ a ∈ rest.map Prod.fst, '.' ∉ a.data ∧ a ≠ "" := by
        intro a ha
        exact hkeys a (by simp [ha])
      have hgroupkeys : (flatGroup pfx (k, v)).map Prod.fst
          = (flattenObject v (mkKey pfx k)).map Prod.fst ++ [mkKey pfx k] := by
        simp [flatGroup]
      have hnewnd : keysNodup (acc ++ flatGroup pfx (k, v)) := by
        unfold keysNodup
        rw [List.map_append, hgroupkeys]
        refine List.Nodup.append haccnd ?_ ?_
        · refine List.Nodup.append hndnested (List.nodup_singleton _) ?_
          intro a ha hb
          simp only [List.mem_singleton] at hb
          subst hb
          obtain ⟨r, hr⟩ := hshape _ ha
          exact self_ne_deep (mkKey pfx k) r hr
        · intro a ha hb
          rcases List.mem_append.mp hb with h1 | h1
          · obtain ⟨r, hr⟩ := hshape _ h1
            exact (hfresh a ha (k, v) (by simp)).2 r hr
          · simp only [List.mem_singleton] at h1
            exact (hfresh a ha (k, v) (by simp)).1 h1
      have hnewfresh : ∀ key ∈ (acc ++ flatGroup pfx (k, v)).map Prod.fst,
          ∀ q ∈ rest,
          key ≠ mkKey pfx q.1 ∧ ∀ r, key ≠ mkKey pfx q.1 ++ "." ++ r := by
        intro key hkey q hq
        obtain ⟨hqdot, hqne⟩ := hkeys q.1 (by
          simp only [List.map_cons, List.mem_cons]
          exact Or.inr (List.mem_map.mpr ⟨q, hq, rfl⟩))
        rw [List.map_append] at hkey
        rcases List.mem_append.mp hkey with h1 | h1
        · exact hfresh key h1 q (List.mem_cons_of_mem _ hq)
        · rw [hgroupkeys] at h1
          rcases List.mem_append.mp h1 with h2 | h2
          · obtain ⟨r, hr⟩ := hshape key h2
            subst hr
            constructor
            · exact Ne.symm (mkKey_ne_deep r hqdot)
            · intro r'
              exact deep_ne_deep r r' hdot hqdot (hkne q hq)
          · simp only [List.mem_singleton] at h2
            subst h2
            constructor
            · intro hc
              exact hkne q hq (mkKey_inj hc)
            · intro r
              exact mkKey_ne_deep r hdot
      rw [flattenList_cons, hacc',
        ih pfx (acc ++ flatGroup pfx (k, v)) hnd.2 hkeys' hnewnd hnewfresh,
        List.flatMap_cons, List.append_assoc]

/-! ### C4 — flatten / re-nest round trip -/

/-- Navigation of a nested value along a segment path (the reading
counterpart of `setNestedValue`): descend through object keys only. -/
def getPath : JValue → List String → Option JValue
  | v, [] => some v
  | v, k :: rest =>
      match v with
      | .obj es =>
          match jsGet es k with
          | some w => getPath w rest
          | none => none
      | _ => none

mutual
/-- The value contains no arrays anywhere (the scope named by the
round-trip property). -/
def noArrays : JValue → Bool
  | .arr _ => false
  | .obj es => noArraysEntries es
  | _ => true

def noArraysEntries : List (String × JValue) → Bool
  | [] => true
  | (_, v) :: rest => noArrays v && noArraysEntries rest
end

/-- Re-nesting a flattened entry list: split each key on `.` and assign
with `setNestedValue` into an initially empty object, in list order. -/
def renest (entries : List (String × JValue)) : JValue :=
  entries.foldl (fun acc p => setNested acc (splitDot p.1) p.2) (.obj [])

theorem joinDot_cons {p : List String} (k : String) (h : p ≠ []) :
    joinDot (k :: p) = k ++ "." ++ joinDot p := by
  cases p with
  | nil => exact absurd rfl h
  | cons a rest => rfl

theorem setNested_cons_ne (es : List (String × JValue)) (k : String)
    {t : List String} (ht : t ≠ []) (w : JValue) :
    setNested (.obj es) (k :: t) w
      = .obj (jsSet es k (setNested
          (match jsGet es k with
           | some (.obj ces) => JValue.obj ces
           | _ => JValue.obj []) t w)) := by
  cases t with
  | nil => exact absurd rfl ht
  | cons a t' => rfl

/-- Re-nesting one flattened group: the deep entries only build scaffolding
under `k` that the final node entry `(k, v)` overwrites wholesale. -/
theorem renest_group (k : String) (hk : '.' ∉ k.data) (v : JValue) :
    ∀ (nested : List (String × JValue)),
      (∀ key ∈ nested.map Prod.fst, ∃ r, key = k ++ "." ++ r) →
      ∀ acc : List (String × JValue),
        List.foldl (fun a p => setNested a (splitDot p.1) p.2) (.obj acc)
          (nested ++ [(k, v)]) = .obj (jsSet acc k v) := by
  intro nested
  induction nested with
  | nil =>
      intro _ acc
      simp only [List.nil_append, List.foldl_cons, List.foldl_nil]
      rw [splitDot_no_dot hk]
      rfl
  | cons q rest ih =>
      intro hshape acc
      obtain ⟨key₁, w₁⟩ := q
      obtain ⟨r₁, hr₁⟩ := hshape key₁ (by simp)
      simp only [List.cons_append, List.foldl_cons]
      rw [hr₁, splitDot_append r₁ hk,
        setNested_cons_ne acc k (splitDot_ne_nil r₁) w₁,
        ih (fun key hkey => hshape key (by
          simp only [List.map_cons, List.mem_cons]
          exact Or.inr hkey)) _,
        jsSet_jsSet]

/-- Re-nesting the whole flattened list rebuilds the original entries by
plain key-by-key assignment. -/
theorem renest_groups :
    ∀ (es : List (String × JValue)),
      (∀ k ∈ es.map Prod.fst, '.' ∉ k.data ∧ k ≠ "") →
      ∀ acc : List (String × JValue),
        List.foldl (fun a p => setNested a (splitDot p.1) p.2) (.obj acc)
          (es.flatMap (flatGroup "")) = .obj (jsAssign acc es) := by
  intro es
  induction es with
  | nil =>
      intro _ acc
      simp [jsAssign]
  | cons p rest ih =>
      intro hkeys acc
      obtain ⟨k, v⟩ := p
      obtain ⟨hdot, hne⟩ := hkeys k (by simp)
      rw [List.flatMap_cons, List.foldl_append]
      have hgroup : flatGroup "" (k, v) = flattenObject v k ++ [(k, v)] := by
        simp [flatGroup, mkKey_empty]
      rw [hgroup,
        renest_group k hdot v (flattenObject v k)
          (flattenObject_key_shape hne) acc]
      exact ih (fun a ha => hkeys a (by simp [ha])) (jsSet acc k v)

/-- C4 (amended): for every object whose keys — at every level — are
pairwise distinct, dot-free and nonempty, flattening with `flattenObject`
and re-nesting every flattened entry with `setNestedValue` rebuilds the
original object exactly (in particular it is deep-equal at every leaf).
Without the dot-free condition the round trip fails: see the
counterexample. -/
theorem c4_flatten_roundtrip (es : List (String × JValue))
    (hwf : flattenSafeEntries es = true) :
    renest (flattenObject (.obj es) "") = .obj es := by
  have hnd := flattenSafeEntries_nodup hwf
  have hkeys := flattenSafeEntries_keys hwf
  have hstruct : flattenList es "" [] = es.flatMap (flatGroup "") := by
    have := flattenList_structure es "" [] hnd hkeys List.nodup_nil
      (by intro key hkey; simp at hkey)
    simpa using this
  show renest (flattenList es "" []) = .obj es
  rw [hstruct]
  show List.foldl (fun a p => setNested a (splitDot p.1) p.2) (.obj [])
      (es.flatMap (flatGroup "")) = .obj es
  rw [renest_groups es hkeys [],
    jsAssign_fresh hnd (fun p _ q hq => absurd hq (List.not_mem_nil q))]
  simp

/-- C4 witness: the round trip at a concrete two-level safe object. -/
theorem c4_witness :
    flattenSafeEntries [("a", JValue.obj [("b", JValue.str "X")])] = true ∧
    renest (flattenObject (.obj [("a", JValue.obj [("b", JValue.str "X")])]) "")
      = .obj [("a", JValue.obj [("b", JValue.str "X")])] :=
  ⟨rfl, c4_flatten_roundtrip _ rfl⟩

/-- The array-free object refuting C4 as stated: one key that itself
contains a dot. -/
def c4Data : JValue := .obj [("a.b", .str "X")]

/-- C4 counterexample: `c4Data` is an array-free nested object whose leaf
at path `a.b` holds `"X"`, yet flattening and re-nesting (splitting each
flattened key on `.` and assigning with `setNestedValue`) yields an object
with *no* value at that leaf's path — the dotted key is torn apart into
`{a:{b:"X"}}` — so the result is not deep-equal to the original at every
leaf. -/
theorem c4_counterexample :
    noArrays c4Data = true ∧
    getPath c4Data ["a.b"] = some (.str "X") ∧
    getPath (renest (flattenObject c4Data "")) ["a.b"] = none :=
  ⟨rfl, rfl, rfl⟩

/-! ### C6 — every navigable path appears in the flattened map -/

/-- Every navigable path of a safe entry list appears in the flattened
list at its composite dotted key, bound to the navigated value — whether
that value is a leaf or an intermediate object node. -/
theorem flattenList_lookup :
    ∀ (n : Nat) (es : List (String × JValue)) (pfx : String),
      jsizeEntries es ≤ n → flattenSafeEntries es = true →
      ∀ (p : List String) (v : JValue), p ≠ [] →
        getPath (.obj es) p = some v →
        jsGet (flattenList es pfx []) (mkKey pfx (joinDot p)) = some v := by
  intro n
  induction n with
  | zero =>
      intro es pfx hsz hsafe p v hp hget
      exfalso
      cases p with
      | nil => exact hp rfl
      | cons k rest =>
          cases es with
          | nil => simp [getPath, jsGet] at hget
          | cons q rest' =>
              obtain ⟨k0, v0⟩ := q
              have := jsize_pos v0
              simp [jsizeEntries] at hsz
  | succ m ih =>
      intro es pfx hsz hsafe p v hp hget
      have hnd := flattenSafeEntries_nodup hsafe
      have hkeys := flattenSafeEntries_keys hsafe
      have hstruct : flattenList es pfx [] = es.flatMap (flatGroup pfx) := by
        have := flattenList_structure es pfx [] hnd hkeys List.nodup_nil
          (by intro key hkey; simp at hkey)
        simpa using this
      have G : ∀ (es' : List (String × JValue)), jsizeEntries es' ≤ m + 1 →
          flattenSafeEntries es' = true →
          ∀ (p : List String) (v : JValue), p ≠ [] →
            getPath (.obj es') p = some v →
            jsGet (es'.flatMap (flatGroup pfx)) (mkKey pfx (joinDot p))
              = some v := by
        intro es'
        induction es' with
        | nil =>
            intro _ _ p' v' hp' hget'
            exfalso
            cases p' with
            | nil => exact hp' rfl
            | cons k rest => simp [getPath, jsGet] at hget'
        | cons q rest ihes =>
            intro hsz' hsafe' p' v' hp' hget'
            obtain ⟨k, u⟩ := q
            obtain ⟨hany, hdot, hne, hsafeu, hsafeR⟩ :=
              flattenSafeEntries_cons hsafe'
            cases p' with
            | nil => exact absurd rfl hp'
            | cons k₁ p'' =>
                rw [List.flatMap_cons, jsGet_append]
                by_cases hkk : k = k₁
                · subst hkk
                  have hgetu : getPath u p'' = some v' := by
                    simpa [getPath, jsGet_cons] using hget'
                  cases p'' with
                  | nil =>
                      have hv : u = v' := by simpa [getPath] using hgetu
                      subst hv
                      have hmiss : jsGet (flattenObject u (mkKey pfx k))
                          (mkKey pfx k) = none := by
                        apply jsGet_eq_none
                        intro q hq
                        obtain ⟨r, hr⟩ := flattenObject_key_shape
                          (mkKey_ne_empty (fun _ => hne)) q.1
                          (List.mem_map.mpr ⟨q, hq, rfl⟩)
                        rw [hr]
                        exact Ne.symm (self_ne_deep (mkKey pfx k) r)
                      rw [show joinDot [k] = k from rfl,
                        show flatGroup pfx (k, u)
                          = flattenObject u (mkKey pfx k)
                            ++ [(mkKey pfx k, u)] from rfl,
                        jsGet_append, hmiss]
                      simp [jsGet_cons]
                  | cons k₂ p₃ =>
                      cases u with
                      | obj es₀ =>
                          have hsafe₀ : flattenSafeEntries es₀ = true := hsafeu
                          have hsz₀ : jsizeEntries es₀ ≤ m := by
                            have h1 : jsizeEntries ((k, JValue.obj es₀) :: rest)
                                = 1 + (1 + jsizeEntries es₀)
                                  + jsizeEntries rest := rfl
                            omega
                          have hrec := ih es₀ (mkKey pfx k) hsz₀ hsafe₀
                            (k₂ :: p₃) v' (by simp) hgetu
                          have hNK : mkKey (mkKey pfx k) (joinDot (k₂ :: p₃))
                              = mkKey pfx k ++ "." ++ joinDot (k₂ :: p₃) :=
                            mkKey_of_ne (mkKey_ne_empty (fun _ => hne)) _
                          have hTK : mkKey pfx (joinDot (k :: k₂ :: p₃))
                              = mkKey pfx k ++ "." ++ joinDot (k₂ :: p₃) := by
                            rw [joinDot_cons k (by simp), mkKey_append]
                          rw [hTK,
                            show flatGroup pfx (k, JValue.obj es₀)
                              = flattenObject (JValue.obj es₀) (mkKey pfx k)
                                ++ [(mkKey pfx k, JValue.obj es₀)] from rfl,
                            jsGet_append, flattenObject_obj]
                          rw [hNK] at hrec
                          rw [hrec]
                      | str s => simp [getPath] at hgetu
                      | num i => simp [getPath] at hgetu
                      | bool b => simp [getPath] at hgetu
                      | null => simp [getPath] at hgetu
                      | arr l => simp [getPath] at hgetu
                · have hget₂ : getPath (.obj rest) (k₁ :: p'') = some v' := by
                    simpa [getPath, jsGet_cons, hkk] using hget'
                  have hw : ∃ w, jsGet rest k₁ = some w := by
                    cases hjw : jsGet rest k₁ with
                    | none => exact absurd hget₂ (by simp [getPath, hjw])
                    | some w => exact ⟨w, rfl⟩
                  obtain ⟨w, hjw⟩ := hw
                  have hk₁mem : k₁ ∈ rest.map Prod.fst := by
                    obtain ⟨q', hq', hq'k⟩ :=
                      List.any_eq_true.mp (any_key_of_get hjw)
                    simp only [decide_eq_true_eq] at hq'k
                    exact List.mem_map.mpr ⟨q', hq', hq'k⟩
                  obtain ⟨hk₁dot, hk₁ne⟩ :=
                    flattenSafeEntries_keys hsafeR k₁ hk₁mem
                  have htarget : mkKey pfx (joinDot (k₁ :: p'')) = mkKey pfx k₁
                      ∨ ∃ J, mkKey pfx (joinDot (k₁ :: p''))
                          = mkKey pfx k₁ ++ "." ++ J := by
                    cases p'' with
                    | nil => exact Or.inl rfl
                    | cons a b =>
                        refine Or.inr ⟨joinDot (a :: b), ?_⟩
                        rw [joinDot_cons k₁ (by simp), mkKey_append]
                  have hmiss : jsGet (flatGroup pfx (k, u))
                      (mkKey pfx (joinDot (k₁ :: p''))) = none := by
                    apply jsGet_eq_none
                    intro q hq
                    rcases List.mem_append.mp hq with h1 | h1
                    · obtain ⟨r, hr⟩ := flattenObject_key_shape
                        (mkKey_ne_empty (fun _ => hne)) q.1
                        (List.mem_map.mpr ⟨q, h1, rfl⟩)
                      rw [hr]
                      rcases htarget with ht | ⟨J, ht⟩
                      · rw [ht]
                        exact Ne.symm (mkKey_ne_deep r hk₁dot)
                      · rw [ht]
                        exact deep_ne_deep r J hdot hk₁dot hkk
                    · simp only [List.mem_singleton] at h1
                      subst h1
                      rcases htarget with ht | ⟨J, ht⟩
                      · rw [ht]
                        intro hc
                        exact hkk (mkKey_inj hc)
                      · rw [ht]
                        exact mkKey_ne_deep J hdot
                  rw [hmiss]
                  have hszrest : jsizeEntries rest ≤ m + 1 := by
                    have h1 : jsizeEntries ((k, u) :: rest)
                        = 1 + jsize u + jsizeEntries rest := rfl
                    have h2 := jsize_pos u
                    omega
                  exact ihes hszrest hsafeR (k₁ :: p'') v' (by simp) hget₂
      rw [hstruct]
      exact G es hsz hsafe p v hp hget

/-- C6 (amended): for every object whose keys — at every level — are
pairwise distinct, dot-free and nonempty, the flattened map produced by
`flattenObject` contains every navigable node of the object (leaf or
intermediate object alike) at its dotted path, bound to that node's value;
in particular a dotted path may resolve to either an object or a scalar.
For arbitrary objects the containment fails: see the counterexample. -/
theorem c6_flatten_contains (d : JValue) (hwf : flattenSafe d = true)
    (p : List String) (v : JValue) (hne : p ≠ []) (hget : getPath d p = some v) :
    jsGet (flattenObject d "") (joinDot p) = some v := by
  cases d with
  | obj es =>
      have hsafe : flattenSafeEntries es = true := hwf
      have := flattenList_lookup (jsizeEntries es) es "" le_rfl hsafe p v hne hget
      rwa [mkKey_empty] at this
  | str s => cases p with
      | nil => exact absurd rfl hne
      | cons a b => simp [getPath] at hget
  | num i => cases p with
      | nil => exact absurd rfl hne
      | cons a b => simp [getPath] at hget
  | bool b => cases p with
      | nil => exact absurd rfl hne
      | cons a b => simp [getPath] at hget
  | null => cases p with
      | nil => exact absurd rfl hne
      | cons a b => simp [getPath] at hget
  | arr l => cases p with
      | nil => exact absurd rfl hne
      | cons a b => simp [getPath] at hget

/-- C6 witness: the amended theorem at `{a:{b:"1"}}` and the path
`a.b`, whose leaf `"1"` the flattened map binds at `"a.b"`. -/
theorem c6_witness :
    flattenSafe (JValue.obj [("a", JValue.obj [("b", JValue.str "1")])]) = true ∧
    (["a", "b"] : List String) ≠ [] ∧
    getPath (JValue.obj [("a", JValue.obj [("b", JValue.str "1")])]) ["a", "b"]
      = some (JValue.str "1") ∧
    jsGet (flattenObject (JValue.obj [("a", JValue.obj [("b", JValue.str "1")])]) "")
      (joinDot ["a", "b"]) = some (JValue.str "1") :=
  ⟨rfl, by simp, rfl,
    c6_flatten_contains (JValue.obj [("a", JValue.obj [("b", JValue.str "1")])])
      rfl ["a", "b"] (JValue.str "1") (by simp) rfl⟩

/-- The nested object refuting C6 as stated: a dotted top-level key
collides with the dotted path of an inner leaf. -/
def c6Data : JValue :=
  .obj [("a", .obj [("b", .str "1")]), ("a.b", .str "2")]

/-- C6 counterexample: in `c6Data` the leaf at path `a → b` holds `"1"`,
but the flattened map binds the dotted path `"a.b"` to `"2"` — the later
literal key overwrites the path-derived one — so the flattened map does
not contain every leaf's dotted path mapped to the leaf value. -/
theorem c6_counterexample :
    getPath c6Data ["a", "b"] = some (.str "1") ∧
    jsGet (flattenObject c6Data "") (joinDot ["a", "b"]) = some (.str "2") :=
  ⟨rfl, rfl⟩

end DevCooker
